import Mathlib

/-!
Verification development for the methylome query engine ("mxe").

Shallow embedding of the parts of the code base relevant to its
specification: the request wire format (src/src/request.cpp), the
connection error paths (src/src/connection.cpp), the bin aggregation
kernels (src/src/bins.cpp), the CpG index offset query (declared in the
cpg_index header; its translation unit is not in the tree, so the query
is modelled from the spec), the methylome-set cache protocol (modelled
from the spec) and the cpg_index_set constructor.

Buffers are lists of byte values (Nat, each < 256 in practice);
machine integers are Nat with explicit bounds where overflow matters.
-/

namespace Mxe

/-! ### Request wire format, from src/src/request.cpp

The request header is a 256-byte buffer holding the text
`accession '\t' methylome_size '\t' n_intervals '\n'` followed by zero
padding (`request::to_buffer` formats with `std::format` and copies over
a zero-filled buffer; `request::from_buffer` scans for the first tab and
then parses the two integers with `std::from_chars`). -/

/-- Status codes used by `request::from_buffer` (src/src/status_code.hpp). -/
inductive status_code
  | ok
  | malformed_accession
  | malformed_methylome_size
  | malformed_n_intervals
deriving DecidableEq, Repr

/-- The `request` struct (src/src/request.hpp).  The accession is kept as a
list of byte values; `offsets` is the variable-length payload, untouched by
the header codec. -/
structure request where
  accession : List Nat
  methylome_size : Nat
  n_intervals : Nat
  offsets : List (Nat × Nat)
deriving DecidableEq, Repr

/-- `request::buf_size`: the full fixed header size in bytes. -/
def buf_size : Nat := 256

/-- Largest value of a `std::uint32_t`; `std::from_chars` into a
`uint32_t` reports `result_out_of_range` above this. -/
def u32_max : Nat := 4294967295

/-- ASCII decimal digit test, as used by `std::from_chars`. -/
def isDigitByte (b : Nat) : Bool := decide (48 ≤ b) && decide (b ≤ 57)

/-- Decimal digits of `n`, least significant first, as ASCII byte values.
The first argument is structural fuel; `n` itself is always enough fuel. -/
def digitsRevFuel : Nat → Nat → List Nat
  | _, 0 => []
  | 0, _ + 1 => []
  | f + 1, n + 1 => ((n + 1) % 10 + 48) :: digitsRevFuel f ((n + 1) / 10)

/-- ASCII decimal representation of `n`, most significant digit first,
as produced by `std::format` / `std::to_chars` for unsigned values. -/
def decimalBytes (n : Nat) : List Nat :=
  if n = 0 then [48] else (digitsRevFuel n n).reverse

/-- Value denoted by a list of ASCII digit bytes, most significant first. -/
def parseDigitsVal (l : List Nat) : Nat := l.foldl (fun a d => a * 10 + (d - 48)) 0

/-- `std::from_chars` into a `uint32_t`: consume the maximal run of digit
bytes; fail if there is none or the value does not fit.  Returns the value
and the unconsumed bytes. -/
def parseU32 (l : List Nat) : Option (Nat × List Nat) :=
  let ds := l.takeWhile isDigitByte
  if ds.isEmpty then none
  else if parseDigitsVal ds ≤ u32_max then some (parseDigitsVal ds, l.drop ds.length)
  else none

/-- `request::from_buffer` (src/src/request.cpp).  Mirrors the source: the
fields are cleared first, then the accession is read up to the first tab,
then the two integers are parsed, each stored as soon as its parse
succeeds.  Reading one byte past the parse cursor when it sits at the end
of the buffer (out of range in the C++ source) is modelled as reading a 0
byte, which matches neither delimiter and so yields an error either way. -/
def fromBuffer (r0 : request) (buf : List Nat) : status_code × request :=
  let r1 : request := { r0 with accession := [], methylome_size := 0, n_intervals := 0 }
  let acc := buf.takeWhile (fun b => b != 9)
  if acc.length = buf.length then (status_code.malformed_accession, r1)
  else
    let r2 : request := { r1 with accession := acc }
    match parseU32 (buf.drop (acc.length + 1)) with
    | none => (status_code.malformed_methylome_size, r2)
    | some (ms, rest2) =>
      let r3 : request := { r2 with methylome_size := ms }
      if rest2.headD 0 != 9 then (status_code.malformed_n_intervals, r3)
      else
        match parseU32 (rest2.drop 1) with
        | none => (status_code.malformed_n_intervals, r3)
        | some (ni, rest3) =>
          let r4 : request := { r3 with n_intervals := ni }
          if rest3.headD 0 != 10 then (status_code.malformed_n_intervals, r4)
          else (status_code.ok, r4)

/-- The text `std::format("{}\t{}\t{}\n", accession, methylome_size,
n_intervals)` produces in `request::to_buffer`. -/
def serialRequest (r : request) : List Nat :=
  r.accession ++ 9 :: (decimalBytes r.methylome_size ++ 9 :: (decimalBytes r.n_intervals ++ [10]))

/-- `std::ranges::copy` of `src` onto the front of `dst`. -/
def listCopy (src dst : List Nat) : List Nat := src ++ dst.drop src.length

/-- `request::to_buffer` (src/src/request.cpp): zero-fill the 256-byte
buffer, then copy the formatted text over its front. -/
def toBuffer (r : request) : List Nat := listCopy (serialRequest r) (List.replicate buf_size 0)

/-! ### Helper lemmas for the request codec -/

theorem takeWhile_append_stop {p : Nat → Bool} :
    ∀ (l : List Nat) (x : Nat) (r : List Nat), (∀ b ∈ l, p b = true) → p x = false →
      (l ++ x :: r).takeWhile p = l := by
  intro l x r hl hx
  induction l with
  | nil => simp [List.takeWhile_cons, hx]
  | cons a t ih =>
    have ha : p a = true := hl a (by simp)
    simp only [List.cons_append, List.takeWhile_cons, ha]
    have := ih (fun b hb => hl b (by simp [hb]))
    simp [this]

theorem drop_append_len : ∀ (l : List Nat) (z : List Nat), (l ++ z).drop l.length = z := by
  intro l z
  induction l with
  | nil => simp
  | cons a t ih => simp [ih]

theorem drop_append_len_succ (l : List Nat) (x : Nat) (z : List Nat) :
    (l ++ x :: z).drop (l.length + 1) = z := by
  have h : l ++ x :: z = (l ++ [x]) ++ z := by simp
  have h2 : (l ++ [x]).length = l.length + 1 := by simp
  rw [h, ← h2, drop_append_len]

theorem digitsRevFuel_all_digit : ∀ (f n b : Nat), b ∈ digitsRevFuel f n → isDigitByte b = true := by
  intro f
  induction f with
  | zero => intro n b hb; cases n <;> simp [digitsRevFuel] at hb
  | succ f ih =>
    intro n b hb
    cases n with
    | zero => simp [digitsRevFuel] at hb
    | succ m =>
      simp only [digitsRevFuel, List.mem_cons] at hb
      rcases hb with hb | hb
      · subst hb
        have h10 : (m + 1) % 10 < 10 := Nat.mod_lt _ (by omega)
        simp only [isDigitByte, Bool.and_eq_true, decide_eq_true_eq]
        omega
      · exact ih _ _ hb

theorem decimalBytes_all_digit (n b : Nat) (hb : b ∈ decimalBytes n) : isDigitByte b = true := by
  unfold decimalBytes at hb
  by_cases h : n = 0
  · simp [h] at hb
    subst hb
    decide
  · simp only [h, if_false, List.mem_reverse] at hb
    exact digitsRevFuel_all_digit _ _ _ hb

theorem decimalBytes_ne_nil (n : Nat) : decimalBytes n ≠ [] := by
  unfold decimalBytes
  by_cases h : n = 0
  · simp [h]
  · cases n with
    | zero => simp at h
    | succ m => simp [digitsRevFuel]

theorem foldr_digitsRevFuel :
    ∀ (f n : Nat), n ≤ f →
      List.foldr (fun d a => a * 10 + (d - 48)) 0 (digitsRevFuel f n) = n := by
  intro f
  induction f with
  | zero => intro n hn; interval_cases n; simp [digitsRevFuel]
  | succ f ih =>
    intro n hn
    cases n with
    | zero => simp [digitsRevFuel]
    | succ m =>
      have hdiv : (m + 1) / 10 ≤ f := by
        have h1 : (m + 1) / 10 < m + 1 := Nat.div_lt_self (by omega) (by omega)
        omega
      simp only [digitsRevFuel, List.foldr_cons, ih _ hdiv]
      omega

theorem parseDigitsVal_decimalBytes (n : Nat) : parseDigitsVal (decimalBytes n) = n := by
  unfold parseDigitsVal decimalBytes
  by_cases h : n = 0
  · simp [h]
  · simp only [h, if_false, List.foldl_reverse]
    exact foldr_digitsRevFuel n n le_rfl

theorem drop_replicate_zero (m k : Nat) :
    (List.replicate m (0 : Nat)).drop k = List.replicate (m - k) 0 := by
  induction m generalizing k with
  | zero => simp
  | succ m ih =>
    cases k with
    | zero => simp
    | succ k => simp [List.replicate_succ, ih]

theorem toBuffer_pad (r : request) :
    toBuffer r = serialRequest r ++ List.replicate (buf_size - (serialRequest r).length) 0 := by
  unfold toBuffer listCopy
  rw [drop_replicate_zero]

theorem parseU32_decimal (n y : Nat) (rest : List Nat)
    (hy : isDigitByte y = false) (hn : n ≤ u32_max) :
    parseU32 (decimalBytes n ++ y :: rest) = some (n, y :: rest) := by
  have htw : (decimalBytes n ++ y :: rest).takeWhile isDigitByte = decimalBytes n :=
    takeWhile_append_stop _ _ _ (fun b hb => decimalBytes_all_digit n b hb) hy
  have hne : (decimalBytes n).isEmpty = false := by
    cases hd : decimalBytes n with
    | nil => exact absurd hd (decimalBytes_ne_nil n)
    | cons a t => simp
  unfold parseU32
  simp only [htw, hne, Bool.false_eq_true, if_false, parseDigitsVal_decimalBytes n, hn, if_pos,
    if_true, drop_append_len]

/-- Core of the wire round trip: decoding the encoded buffer recovers the
three header fields, whatever the prior field values `r0` held. -/
theorem roundtrip_core (r r0 : request)
    (hacc : ∀ b ∈ r.accession, b ≠ 9)
    (hms : r.methylome_size ≤ u32_max) (hni : r.n_intervals ≤ u32_max) :
    fromBuffer r0 (toBuffer r) =
      (status_code.ok,
        { r0 with accession := r.accession, methylome_size := r.methylome_size,
                  n_intervals := r.n_intervals }) := by
  have hpad : toBuffer r = r.accession ++ 9 ::
      (decimalBytes r.methylome_size ++ 9 :: (decimalBytes r.n_intervals ++ 10 ::
        List.replicate (buf_size - (serialRequest r).length) 0)) := by
    rw [toBuffer_pad r]
    unfold serialRequest
    simp
  have htw : (toBuffer r).takeWhile (fun b => b != 9) = r.accession := by
    rw [hpad]
    refine takeWhile_append_stop _ _ _ (fun b hb => ?_) (by decide)
    simpa using hacc b hb
  have hlen : ¬ ((r.accession).length = (toBuffer r).length) := by
    rw [hpad]
    simp only [List.length_append, List.length_cons]
    omega
  have hdrop : (toBuffer r).drop ((r.accession).length + 1) =
      decimalBytes r.methylome_size ++ 9 :: (decimalBytes r.n_intervals ++ 10 ::
        List.replicate (buf_size - (serialRequest r).length) 0) := by
    rw [hpad]
    exact drop_append_len_succ _ _ _
  have hp1 := parseU32_decimal r.methylome_size 9
    (decimalBytes r.n_intervals ++ 10 :: List.replicate (buf_size - (serialRequest r).length) 0)
    (by decide) hms
  have hp2 := parseU32_decimal r.n_intervals 10
    (List.replicate (buf_size - (serialRequest r).length) 0) (by decide) hni
  unfold fromBuffer
  simp only [htw, hlen, if_false, hdrop, hp1, hp2, List.headD_cons, List.drop_succ_cons,
    List.drop_zero]
  norm_num

/-- C4: encoding a request with `request::to_buffer` and decoding with
`request::from_buffer` is the identity on (accession, methylome_size,
n_intervals) whenever the accession has no tab or newline byte and the
serialized text fits the 256-byte buffer; and decoding any buffer yields
either a valid request (`ok`) or one of the error status codes. -/
theorem request_wire_roundtrip (r r0 : request)
    (hacc : ∀ b ∈ r.accession, b ≠ 9 ∧ b ≠ 10)
    (hms : r.methylome_size ≤ u32_max) (hni : r.n_intervals ≤ u32_max)
    (hfit : (serialRequest r).length ≤ buf_size) :
    fromBuffer r0 (toBuffer r) =
      (status_code.ok,
        { r0 with accession := r.accession, methylome_size := r.methylome_size,
                  n_intervals := r.n_intervals }) ∧
    (∀ buf : List Nat, (fromBuffer r0 buf).1 = status_code.ok ∨
      (fromBuffer r0 buf).1 = status_code.malformed_accession ∨
      (fromBuffer r0 buf).1 = status_code.malformed_methylome_size ∨
      (fromBuffer r0 buf).1 = status_code.malformed_n_intervals) := by
  constructor
  · exact roundtrip_core r r0 (fun b hb => (hacc b hb).1) hms hni
  · intro buf
    by_cases h1 : (List.takeWhile (fun b => b != 9) buf).length = buf.length
    · right; left; simp [fromBuffer, h1]
    · cases h2 : parseU32 (List.drop ((List.takeWhile (fun b => b != 9) buf).length + 1) buf) with
      | none => right; right; left; simp [fromBuffer, h1, h2]
      | some v =>
        obtain ⟨ms, rest2⟩ := v
        by_cases h3 : rest2.head?.getD 0 = 9
        · cases h4 : parseU32 rest2.tail with
          | none => right; right; right; simp [fromBuffer, h1, h2, h3, h4]
          | some w =>
            obtain ⟨ni, rest3⟩ := w
            by_cases h5 : rest3.head?.getD 0 = 10
            · left; simp [fromBuffer, h1, h2, h3, h4, h5]
            · right; right; right; simp [fromBuffer, h1, h2, h3, h4, h5]
        · right; right; right; simp [fromBuffer, h1, h2, h3]

/-- A concrete request used to instantiate theorems with hypotheses. -/
def rtExample : request := { accession := [97, 66, 95], methylome_size := 3, n_intervals := 2, offsets := [] }

/-- A request with stale field values, standing for a previously used
`request` object. -/
def staleExample : request := { accession := [120, 121], methylome_size := 77, n_intervals := 88, offsets := [(5, 6)] }

/-- C4 witness: the round trip at a concrete request with concrete stale state. -/
theorem request_wire_roundtrip_witness :
    fromBuffer staleExample (toBuffer rtExample) =
      (status_code.ok,
        { staleExample with accession := rtExample.accession,
                            methylome_size := rtExample.methylome_size,
                            n_intervals := rtExample.n_intervals }) ∧
    (fromBuffer staleExample [97, 9, 120]).1 = status_code.malformed_methylome_size :=
  ⟨(request_wire_roundtrip rtExample staleExample (by decide) (by decide) (by decide)
      (by decide)).1,
   by decide⟩

/-- C9: `request::from_buffer` never leaves stale data: the status and the
three header fields it produces depend only on the buffer, not on the prior
contents of the request object, and on an error return every field whose
parse was not reached is empty or zero (on `malformed_n_intervals` the
`n_intervals` field is either still zero or was parsed from the current
buffer). -/
theorem from_buffer_no_stale (ra rb : request) (buf : List Nat) :
    ((fromBuffer ra buf).1 = (fromBuffer rb buf).1 ∧
      (fromBuffer ra buf).2.accession = (fromBuffer rb buf).2.accession ∧
      (fromBuffer ra buf).2.methylome_size = (fromBuffer rb buf).2.methylome_size ∧
      (fromBuffer ra buf).2.n_intervals = (fromBuffer rb buf).2.n_intervals) ∧
    ((fromBuffer ra buf).1 = status_code.malformed_accession →
      (fromBuffer ra buf).2.accession = [] ∧ (fromBuffer ra buf).2.methylome_size = 0 ∧
        (fromBuffer ra buf).2.n_intervals = 0) ∧
    ((fromBuffer ra buf).1 = status_code.malformed_methylome_size →
      (fromBuffer ra buf).2.methylome_size = 0 ∧ (fromBuffer ra buf).2.n_intervals = 0) ∧
    ((fromBuffer ra buf).1 = status_code.malformed_n_intervals →
      (fromBuffer ra buf).2.n_intervals = 0 ∨
        (∃ ms rest2 ni rest3,
          parseU32 (buf.drop ((buf.takeWhile (fun b => b != 9)).length + 1)) = some (ms, rest2) ∧
          parseU32 rest2.tail = some (ni, rest3) ∧
          (fromBuffer ra buf).2.n_intervals = ni)) := by
  by_cases h1 : (List.takeWhile (fun b => b != 9) buf).length = buf.length
  · simp [fromBuffer, h1]
  · cases h2 : parseU32 (List.drop ((List.takeWhile (fun b => b != 9) buf).length + 1) buf) with
    | none => simp [fromBuffer, h1, h2]
    | some v =>
      obtain ⟨ms, rest2⟩ := v
      by_cases h3 : rest2.head?.getD 0 = 9
      · cases h4 : parseU32 rest2.tail with
        | none => simp [fromBuffer, h1, h2, h3, h4]
        | some w =>
          obtain ⟨ni, rest3⟩ := w
          by_cases h5 : rest3.head?.getD 0 = 10
          · simp [fromBuffer, h1, h2, h3, h4, h5]
          · exact ⟨by simp [fromBuffer, h1, h2, h3, h4, h5], by simp [fromBuffer, h1, h2, h3, h4, h5],
              by simp [fromBuffer, h1, h2, h3, h4, h5], fun _ => Or.inr
                ⟨ms, rest2, ni, rest3, rfl, h4, by simp [fromBuffer, h1, h2, h3, h4, h5]⟩⟩
      · simp [fromBuffer, h1, h2, h3]

/-- C9 witness: a buffer whose methylome-size parse fails leaves zeroed
integer fields regardless of the prior request contents. -/
theorem from_buffer_no_stale_witness :
    (fromBuffer staleExample [97, 9, 120]).2.methylome_size = 0 ∧
    (fromBuffer staleExample [97, 9, 120]).2.n_intervals = 0 :=
  (from_buffer_no_stale staleExample rtExample [97, 9, 120]).2.2.1 (by decide)

/-! ### The spec's claimed binary request-header layout (claim C5)

The spec asserts a fixed binary header in network byte order.  The
definition below follows the spec's words so it can be compared with the
source's `request::to_buffer`; it is the one refinement-comparison
definition that is written from the spec rather than from the source. -/

/-- Big-endian (network byte order) bytes of a 16-bit value. -/
def u16be (x : Nat) : List Nat := [x / 256 % 256, x % 256]

/-- Big-endian (network byte order) bytes of a 32-bit value. -/
def u32be (x : Nat) : List Nat :=
  [x / 16777216 % 256, x / 65536 % 256, x / 256 % 256, x % 256]

/-- The request-header byte layout claimed by the spec: version as u16,
command as u16, accession_len as u16, reserved as u16, the accession
bytes, methylome_size as u32, n_intervals as u32, zero-padded to the
fixed header size. -/
def specBinaryRequestHeader (version command reserved : Nat) (r : request) : List Nat :=
  let body := u16be version ++ u16be command ++ u16be r.accession.length ++ u16be reserved ++
    r.accession ++ u32be r.methylome_size ++ u32be r.n_intervals
  body ++ List.replicate (buf_size - body.length) 0

/-- C5 counterexample: for the concrete request with accession "aB_",
methylome_size 3 and n_intervals 2, no choice of version, command and
reserved values makes the spec's binary layout equal to the buffer
`request::to_buffer` actually produces: the binary layout puts the first
accession byte (97) at offset 8, while the produced buffer holds the
zero pad there (the text `aB_\t3\t2\n` is only 8 bytes long). -/
theorem to_buffer_not_binary_layout :
    ¬ ∃ version command reserved : Nat,
        toBuffer rtExample = specBinaryRequestHeader version command reserved rtExample := by
  rintro ⟨v, c, rs, h⟩
  have h8 := congrArg (fun l => l.getD 8 0) h
  have hlhs : (toBuffer rtExample).getD 8 0 = 0 := by decide
  have hrhs : (specBinaryRequestHeader v c rs rtExample).getD 8 0 = 97 := rfl
  simp only [hlhs, hrhs] at h8
  exact absurd h8 (by decide)

/-- C5 amended: the encoded request header is not binary; it is the ASCII
text `accession '\t' methylome_size '\t' n_intervals '\n'` (integers in
decimal), zero-padded to the fixed 256-byte header size, and this
encoding is injective on the three header fields for requests meeting the
wire constraints. -/
theorem to_buffer_text_layout (r s : request)
    (hr : (∀ b ∈ r.accession, b ≠ 9) ∧ r.methylome_size ≤ u32_max ∧ r.n_intervals ≤ u32_max)
    (hs : (∀ b ∈ s.accession, b ≠ 9) ∧ s.methylome_size ≤ u32_max ∧ s.n_intervals ≤ u32_max)
    (hfit : (serialRequest r).length ≤ buf_size) :
    toBuffer r = r.accession ++ 9 :: (decimalBytes r.methylome_size ++ 9 ::
      (decimalBytes r.n_intervals ++ [10])) ++
      List.replicate (buf_size - (serialRequest r).length) 0 ∧
    (toBuffer r).length = buf_size ∧
    (toBuffer r = toBuffer s →
      r.accession = s.accession ∧ r.methylome_size = s.methylome_size ∧
        r.n_intervals = s.n_intervals) := by
  refine ⟨toBuffer_pad r, ?_, ?_⟩
  · rw [toBuffer_pad r]
    simp only [List.length_append, List.length_replicate]
    omega
  · intro heq
    have h1 := roundtrip_core r staleExample hr.1 hr.2.1 hr.2.2
    have h2 := roundtrip_core s staleExample hs.1 hs.2.1 hs.2.2
    rw [heq, h2] at h1
    have := congrArg Prod.snd h1
    refine ⟨?_, ?_, ?_⟩
    · exact (congrArg request.accession this).symm
    · exact (congrArg request.methylome_size this).symm
    · exact (congrArg request.n_intervals this).symm

/-- C5 amended witness: the text layout and injectivity at concrete requests. -/
theorem to_buffer_text_layout_witness :
    (toBuffer rtExample).length = buf_size ∧
    (toBuffer rtExample = toBuffer staleExample → False) := by
  have h := to_buffer_text_layout rtExample staleExample (by decide) (by decide) (by decide)
  refine ⟨h.2.1, fun heq => ?_⟩
  have := (h.2.2 heq).2.1
  exact absurd this (by decide)

/-! ### Bin aggregation, from src/src/bins.cpp

`bin_counts` advances a chromosome-position iterator and a CpG-record
iterator in lockstep, so a position paired with its record is modelled as
one triple `(position, n_meth, n_unmeth)`.  All the quantities involved —
the accumulators `n_meth`, `n_unmeth`, `n_covered`, the loop counter `i`
and `bin_end = min(i + bin_size, chrom_size)` — are `uint32_t` in the
source, so the faithful embeddings (`binCountsW`, `chromBinsLoopW`,
`binBoundsLoopW`) reduce every addition modulo 2^32; the loop can
therefore wrap and fail to terminate, which the embedding renders as an
`Option` result: `none` when the fuel runs out with the loop guard still
true.  The unbounded-`Nat` walks (`binCounts`, `chromBinsLoop`,
`binBoundsLoop`) are kept only as proof intermediates: in the
no-overflow regime the wrapping walks provably coincide with them. -/

/-- One CpG site as the kernel sees it: genomic position, methylated
count, unmethylated count. -/
abbrev cpgSite : Type := Nat × Nat × Nat

/-- Idealized (unbounded Nat) accumulation of `bin_counts`, a proof
intermediate for `binCountsW` below: consume sites while the position is
below `binEnd`, returning `(n_meth, n_unmeth, n_covered)` and the
unconsumed sites.  The C++ accumulates with `+=` left to right; the
recursion adds the head to the sum of the tail, the same value for `Nat`
addition. -/
def binCounts : List cpgSite → Nat → (Nat × Nat × Nat) × List cpgSite
  | [], _ => ((0, 0, 0), [])
  | x :: rest, binEnd =>
    if x.1 < binEnd then
      let r := binCounts rest binEnd
      ((x.2.1 + r.1.1, x.2.2 + r.1.2.1, (if 0 < x.2.1 + x.2.2 then 1 else 0) + r.1.2.2), r.2)
    else ((0, 0, 0), x :: rest)

/-- Sums and coverage of a list of sites: total methylated, total
unmethylated, number of sites with at least one read. -/
def siteAgg (l : List cpgSite) : Nat × Nat × Nat :=
  ((l.map (fun x => x.2.1)).sum, (l.map (fun x => x.2.2)).sum,
    l.countP (fun x => decide (0 < x.2.1 + x.2.2)))

theorem binCounts_eq (l : List cpgSite) (e : Nat) :
    binCounts l e = (siteAgg (l.takeWhile (fun x => decide (x.1 < e))),
      l.dropWhile (fun x => decide (x.1 < e))) := by
  induction l with
  | nil => simp [binCounts, siteAgg]
  | cons x rest ih =>
    by_cases h : x.1 < e
    · simp only [binCounts, h, if_true, ih, List.takeWhile_cons, List.dropWhile_cons,
        decide_eq_true_eq, siteAgg, List.map_cons, List.sum_cons, List.countP_cons]
      by_cases h1 : 0 < x.2.1 <;> by_cases h2 : 0 < x.2.2 <;> simp [h1, h2] <;> omega
    · simp [binCounts, h, List.takeWhile_cons, List.dropWhile_cons, siteAgg]

/-- Idealized (unbounded Nat) per-chromosome walk, a proof intermediate
for `chromBinsLoopW` below: the loop
`for (uint32_t i = 0; i < chrom_size; i += bin_size)` with
`bin_end = min(i + bin_size, chrom_size)`, emitting the bin bounds and
the kernel result for each bin, with all arithmetic in `Nat`.  The first
argument is structural fuel. -/
def chromBinsLoop (chromSize binSize : Nat) :
    Nat → Nat → List cpgSite → List ((Nat × Nat) × (Nat × Nat × Nat))
  | 0, _, _ => []
  | fuel + 1, i, pairs =>
    if i < chromSize then
      let r := binCounts pairs (min (i + binSize) chromSize)
      ((i, min (i + binSize) chromSize), r.1) ::
        chromBinsLoop chromSize binSize fuel (i + binSize) r.2
    else []

/-- The idealized Nat walk over one chromosome, started at 0; a proof
intermediate for `chromBinsW` below. -/
def chromBins (chromSize binSize : Nat) (pairs : List cpgSite) :
    List ((Nat × Nat) × (Nat × Nat × Nat)) :=
  chromBinsLoop chromSize binSize chromSize 0 pairs

/-- Idealized (unbounded Nat) bin-bounds walk, a proof intermediate for
`binBoundsLoopW` below: the `write_bins` loop shape without the kernel,
with all arithmetic in `Nat`. -/
def binBoundsLoop (chromSize binSize : Nat) : Nat → Nat → List (Nat × Nat)
  | 0, _ => []
  | fuel + 1, i =>
    if i < chromSize then
      (i, min (i + binSize) chromSize) :: binBoundsLoop chromSize binSize fuel (i + binSize)
    else []

/-- The idealized Nat bin bounds for one chromosome, started at 0; a
proof intermediate for `binBoundsW` below. -/
def binBounds (chromSize binSize : Nat) : List (Nat × Nat) :=
  binBoundsLoop chromSize binSize chromSize 0

/-- Idealized (unbounded Nat) bin bounds over all chromosomes in the
index's chromosome order, a proof intermediate for `binBoundsAllW`
below. -/
def binBoundsAll (sizes : List Nat) (binSize : Nat) : List (Nat × Nat) :=
  (sizes.map (fun s => binBounds s binSize)).flatten

/-- Reduction modulo 2^32: the value a `uint32_t` holds after an
arithmetic operation. -/
def u32 (x : Nat) : Nat := x % 4294967296

/-- `bin_counts` (src/src/bins.cpp lines 60-76), with the `uint32_t`
accumulators of the source: consume sites while the position is below
`binEnd`, accumulating `n_meth`, `n_unmeth` and `n_covered` modulo 2^32,
and return the sums and the unconsumed sites (the final iterator
positions).  Reducing each partial sum modulo 2^32 equals the C++ fold
left to right in `uint32_t`. -/
def binCountsW : List cpgSite → Nat → (Nat × Nat × Nat) × List cpgSite
  | [], _ => ((0, 0, 0), [])
  | x :: rest, binEnd =>
    if x.1 < binEnd then
      let r := binCountsW rest binEnd
      ((u32 (x.2.1 + r.1.1), u32 (x.2.2 + r.1.2.1),
        u32 ((if 0 < x.2.1 + x.2.2 then 1 else 0) + r.1.2.2)), r.2)
    else ((0, 0, 0), x :: rest)

/-- The per-chromosome loop of `bins_main` (src/src/bins.cpp lines
148-157): `for (uint32_t i = 0; i < chrom_size; i += bin_size)` with
`bin_end = min(i + bin_size, chrom_size)`, both computed in `uint32_t`
(so `i + bin_size` wraps modulo 2^32), emitting the bin bounds and the
kernel result for each bin.  The first argument is structural fuel;
`none` means the fuel ran out with the loop guard still true, i.e. the
walk has not terminated within that many iterations. -/
def chromBinsLoopW (chromSize binSize : Nat) :
    Nat → Nat → List cpgSite → Option (List ((Nat × Nat) × (Nat × Nat × Nat)))
  | 0, i, _ => if i < chromSize then none else some []
  | fuel + 1, i, pairs =>
    if i < chromSize then
      let r := binCountsW pairs (min (u32 (i + binSize)) chromSize)
      (chromBinsLoopW chromSize binSize fuel (u32 (i + binSize)) r.2).map
        (fun rest => ((i, min (u32 (i + binSize)) chromSize), r.1) :: rest)
    else some []

/-- The bins walk over one chromosome, started as in the source at 0,
with fuel `chromSize` (enough whenever the loop terminates at all). -/
def chromBinsW (chromSize binSize : Nat) (pairs : List cpgSite) :
    Option (List ((Nat × Nat) × (Nat × Nat × Nat))) :=
  chromBinsLoopW chromSize binSize chromSize 0 pairs

/-- The bin-bounds walk of `write_bins`
(src/src/genomic_interval_output.hpp lines 148-198), with the same
`uint32_t` loop arithmetic as `bins_main`: `bin_beg + bin_size` wraps
modulo 2^32 both in the increment and in `bin_end`. -/
def binBoundsLoopW (chromSize binSize : Nat) : Nat → Nat → Option (List (Nat × Nat))
  | 0, i => if i < chromSize then none else some []
  | fuel + 1, i =>
    if i < chromSize then
      (binBoundsLoopW chromSize binSize fuel (u32 (i + binSize))).map
        (fun rest => (i, min (u32 (i + binSize)) chromSize) :: rest)
    else some []

/-- The bin bounds for one chromosome, started at 0, with fuel
`chromSize`. -/
def binBoundsW (chromSize binSize : Nat) : Option (List (Nat × Nat)) :=
  binBoundsLoopW chromSize binSize chromSize 0

/-- Sequencing of per-chromosome walks: `some` of all results in order
when each terminates, `none` when any chromosome's walk fails to
terminate (in which case the program itself never finishes). -/
def optTraverse {γ δ : Type} (f : γ → Option δ) : List γ → Option (List δ)
  | [] => some []
  | x :: xs =>
    match f x, optTraverse f xs with
    | some y, some ys => some (y :: ys)
    | _, _ => none

/-- Bin bounds over all chromosomes, emitted in the index's chromosome
order (the order of the `chrom_size` list). -/
def binBoundsAllW (sizes : List Nat) (binSize : Nat) : Option (List (Nat × Nat)) :=
  (optTraverse (fun s => binBoundsW s binSize) sizes).map List.flatten

theorem u32_add_absorb (a b : Nat) : u32 (a + u32 b) = u32 (a + b) := by
  unfold u32
  omega

theorem u32_eq_of_lt {x : Nat} (h : x < 4294967296) : u32 x = x := Nat.mod_eq_of_lt h

theorem binCountsW_eq (l : List cpgSite) (e : Nat) :
    binCountsW l e = ((u32 (binCounts l e).1.1, u32 (binCounts l e).1.2.1,
      u32 (binCounts l e).1.2.2), (binCounts l e).2) := by
  induction l with
  | nil => simp [binCountsW, binCounts, u32]
  | cons x rest ih =>
    by_cases h : x.1 < e
    · simp only [binCountsW, binCounts, h, if_true, ih]
      exact Prod.ext (Prod.ext (u32_add_absorb _ _)
        (Prod.ext (u32_add_absorb _ _) (u32_add_absorb _ _))) rfl
    · simp [binCountsW, binCounts, h, u32]

theorem optTraverse_eq_some {γ δ : Type} (f : γ → Option δ) (g : γ → δ) :
    ∀ l : List γ, (∀ x ∈ l, f x = some (g x)) → optTraverse f l = some (l.map g) := by
  intro l
  induction l with
  | nil => intro _; rfl
  | cons x xs ih =>
    intro h
    have hx : f x = some (g x) := h x (by simp)
    have hxs := ih (fun y hy => h y (by simp [hy]))
    simp [optTraverse, hx, hxs]

/-- Number of loop iterations for a remaining span `d` and bin size `B`. -/
def nBins (d B : Nat) : Nat := (d + B - 1) / B

theorem nBins_zero (B : Nat) (hB : 0 < B) : nBins 0 B = 0 := by
  unfold nBins
  rw [Nat.zero_add]
  exact Nat.div_eq_of_lt (by omega)

theorem nBins_step (d B : Nat) (hB : 0 < B) (hd : 0 < d) :
    nBins d B = nBins (d - B) B + 1 := by
  unfold nBins
  rcases le_or_lt d B with h | h
  · have h1 : d - B = 0 := by omega
    rw [h1]
    have h2 : (d + B - 1) / B = 1 :=
      Nat.div_eq_of_lt_le (by omega) (by omega)
    rw [h2]
    have h3 : (0 + B - 1) / B = 0 := Nat.div_eq_of_lt (by omega)
    rw [h3]
  · have h4 : d + B - 1 = (d - B + B - 1) + B := by omega
    rw [h4, Nat.add_div_right _ hB]

theorem binBoundsLoop_closed (S B : Nat) (hB : 0 < B) :
    ∀ fuel i, S - i ≤ fuel →
      binBoundsLoop S B fuel i =
        (List.range (nBins (S - i) B)).map (fun k => (i + k * B, min (i + k * B + B) S)) := by
  have hnil : nBins 0 B = 0 := by
    unfold nBins
    rw [Nat.zero_add]
    exact Nat.div_eq_of_lt (by omega)
  intro fuel
  induction fuel with
  | zero =>
    intro i hi
    have h0 : S - i = 0 := by omega
    rw [h0, hnil]
    simp [binBoundsLoop]
  | succ fuel ih =>
    intro i hi
    by_cases h : i < S
    · have hstep : nBins (S - i) B = nBins (S - i - B) B + 1 := nBins_step _ _ hB (by omega)
      have harg : S - (i + B) = S - i - B := by omega
      have hone : binBoundsLoop S B (fuel + 1) i =
          (i, min (i + B) S) :: binBoundsLoop S B fuel (i + B) := by
        simp [binBoundsLoop, h]
      rw [hone, ih (i + B) (by omega), harg, hstep, List.range_succ_eq_map]
      simp only [List.map_cons, List.map_map]
      congr 1
      · simp
      · apply List.map_congr_left
        intro k hk
        have e1 : i + B + k * B = i + (k + 1) * B := by ring
        simp only [Function.comp_apply]
        rw [e1]
    · have h0 : S - i = 0 := by omega
      rw [h0, hnil]
      simp [binBoundsLoop, h]

/-- In the no-overflow regime S + B ≤ 2^32 the uint32 walk never wraps
and coincides with the idealized Nat walk. -/
theorem binBoundsLoopW_bridge (S B : Nat) (hB : 0 < B) (hw : S + B ≤ 4294967296) :
    ∀ fuel i, S - i ≤ fuel →
      binBoundsLoopW S B fuel i = some (binBoundsLoop S B fuel i) := by
  intro fuel
  induction fuel with
  | zero =>
    intro i hi
    have h : ¬ i < S := by omega
    simp [binBoundsLoopW, binBoundsLoop, h]
  | succ fuel ih =>
    intro i hi
    by_cases h : i < S
    · have hu : u32 (i + B) = i + B := u32_eq_of_lt (by omega)
      simp only [binBoundsLoopW, binBoundsLoop, h, if_true, hu]
      rw [ih (i + B) (by omega)]
      rfl
    · simp [binBoundsLoopW, binBoundsLoop, h]

/-- Partition facts for the idealized Nat-arithmetic walk; the claim
theorem reaches them through the no-overflow bridge below. -/
theorem binsPartitionNat (S B : Nat) (hB : 0 < B) :
    (binBounds S B).length = (S + B - 1) / B ∧
    (∀ k, k < (S + B - 1) / B →
      (binBounds S B).getD k (0, 0) = (k * B, min ((k + 1) * B) S)) ∧
    (∀ k, k + 1 < (S + B - 1) / B →
      ((binBounds S B).getD k (0, 0)).2 = ((binBounds S B).getD (k + 1) (0, 0)).1) ∧
    (∀ x, x < S ↔ ∃ k, k < (S + B - 1) / B ∧
      ((binBounds S B).getD k (0, 0)).1 ≤ x ∧ x < ((binBounds S B).getD k (0, 0)).2) ∧
    (∀ fuel, S ≤ fuel → binBoundsLoop S B fuel 0 = binBounds S B) ∧
    (∀ sizes : List Nat,
      (binBoundsAll sizes B).length = (sizes.map (fun s => (s + B - 1) / B)).sum) := by
  have hcl : binBounds S B =
      (List.range (nBins S B)).map (fun k => (0 + k * B, min (0 + k * B + B) S)) := by
    have := binBoundsLoop_closed S B hB S 0 (by omega)
    simpa [binBounds] using this
  have hn : nBins S B = (S + B - 1) / B := rfl
  have hget : ∀ k, k < (S + B - 1) / B →
      (binBounds S B).getD k (0, 0) = (k * B, min ((k + 1) * B) S) := by
    intro k hk
    rw [hcl]
    have hk2 : k < nBins S B := by rw [hn]; exact hk
    rw [List.getD_eq_getElem?_getD, List.getElem?_map, List.getElem?_range hk2]
    have e1 : k * B + B = (k + 1) * B := by ring
    simp [e1]
  refine ⟨?_, hget, ?_, ?_, ?_, ?_⟩
  · rw [hcl]
    simp [hn]
  · intro k hk
    rw [hget k (by omega), hget (k + 1) hk]
    have hle : (k + 1) * B ≤ S := by
      have h1 : k + 2 ≤ (S + B - 1) / B := hk
      have h2 : (k + 2) * B ≤ S + B - 1 := (Nat.le_div_iff_mul_le hB).mp h1
      have e2 : (k + 2) * B = (k + 1) * B + B := by ring
      omega
    simp [Nat.min_eq_left hle]
  · intro x
    constructor
    · intro hx
      have h1 : x / B * B ≤ x := Nat.div_mul_le_self x B
      have h2 : (x / B + 1) * B ≤ S + B - 1 := by
        rw [show (x / B + 1) * B = x / B * B + B from by ring]
        revert h1 hx
        generalize x / B * B = t
        intro h1 hx
        omega
      have hk : x / B < (S + B - 1) / B :=
        Nat.lt_of_succ_le ((Nat.le_div_iff_mul_le hB).mpr h2)
      have hxlt : x < x / B * B + B := by
        have h := Nat.div_add_mod x B
        rw [Nat.mul_comm B (x / B)] at h
        have hmlt : x % B < B := Nat.mod_lt x hB
        revert h hmlt
        generalize x / B * B = t
        intro h hmlt
        omega
      refine ⟨x / B, hk, ?_, ?_⟩
      · rw [hget (x / B) hk]
        exact h1
      · rw [hget (x / B) hk]
        refine lt_min ?_ hx
        rw [show (x / B + 1) * B = x / B * B + B from by ring]
        exact hxlt
    · rintro ⟨k, hk, hx1, hx2⟩
      rw [hget k hk] at hx2
      exact lt_of_lt_of_le hx2 (min_le_right _ _)
  · intro fuel hf
    rw [binBoundsLoop_closed S B hB fuel 0 (by omega), Nat.sub_zero]
    exact hcl.symm
  · intro sizes
    unfold binBoundsAll
    rw [List.length_flatten, List.map_map]
    apply congrArg
    apply List.map_congr_left
    intro s _
    have hclS : binBounds s B =
        (List.range (nBins s B)).map (fun k => (0 + k * B, min (0 + k * B + B) s)) := by
      have := binBoundsLoop_closed s B hB s 0 (by omega)
      simpa [binBounds] using this
    simp [Function.comp, hclS, nBins]

/-- On an odd chromosome size of 2^32 − 1 with bin size 2 the uint32
loop counter is always even and below the chromosome size, so the loop
guard never fails: no fuel suffices. -/
theorem binBoundsLoopW_wrap_none :
    ∀ fuel i, i % 2 = 0 → i < 4294967296 →
      binBoundsLoopW 4294967295 2 fuel i = none := by
  intro fuel
  induction fuel with
  | zero =>
    intro i h2 hlt
    have h : i < 4294967295 := by omega
    simp [binBoundsLoopW, h]
  | succ fuel ih =>
    intro i h2 hlt
    have h : i < 4294967295 := by omega
    simp only [binBoundsLoopW, h, if_true]
    rw [ih (u32 (i + 2)) (by unfold u32; omega) (by unfold u32; omega)]
    rfl

/-- C3 counterexample: at chromosome size 2^32 − 1 — a value a uint32
`chrom_size` can hold — and bin size 2, the uint32 loop counter wraps
from 4294967294 back to 0 and the walk never terminates: no amount of
fuel makes it return, so the original claim's universally quantified
termination-and-partition statement is false of the program. -/
theorem bins_walk_wraps_forever :
    ¬ ∃ fuel : Nat, (binBoundsLoopW 4294967295 2 fuel 0).isSome = true := by
  rintro ⟨fuel, h⟩
  rw [binBoundsLoopW_wrap_none fuel 0 rfl (by omega)] at h
  simp at h

/-- C3 amended: for every bin size B > 0 and chromosome size S with
S + B ≤ 2^32 — so the uint32 loop arithmetic never wraps — the bins walk
terminates (every fuel of at least S computes the same result), emits
exactly ⌈S/B⌉ bins, the k-th bin is [kB, min((k+1)B, S)), consecutive
bins are adjacent, every position below S lies in some bin and no
position at or above S does, and the all-chromosome emission walks the
chromosomes in the index's order with total count the sum of the
per-chromosome counts. -/
theorem bins_partition_w (S B : Nat) (hB : 0 < B) (hw : S + B ≤ 4294967296) :
    (binBoundsW S B).isSome = true ∧
    (∀ fuel, S ≤ fuel → binBoundsLoopW S B fuel 0 = binBoundsW S B) ∧
    ((binBoundsW S B).getD []).length = (S + B - 1) / B ∧
    (∀ k, k < (S + B - 1) / B →
      ((binBoundsW S B).getD []).getD k (0, 0) = (k * B, min ((k + 1) * B) S)) ∧
    (∀ k, k + 1 < (S + B - 1) / B →
      (((binBoundsW S B).getD []).getD k (0, 0)).2 =
        (((binBoundsW S B).getD []).getD (k + 1) (0, 0)).1) ∧
    (∀ x, x < S ↔ ∃ k, k < (S + B - 1) / B ∧
      (((binBoundsW S B).getD []).getD k (0, 0)).1 ≤ x ∧
        x < (((binBoundsW S B).getD []).getD k (0, 0)).2) ∧
    (∀ sizes : List Nat, (∀ s ∈ sizes, s + B ≤ 4294967296) →
      (binBoundsAllW sizes B).isSome = true ∧
      ((binBoundsAllW sizes B).getD []).length =
        (sizes.map (fun s => (s + B - 1) / B)).sum) := by
  have hsome : binBoundsW S B = some (binBounds S B) :=
    binBoundsLoopW_bridge S B hB hw S 0 (by omega)
  have hgd : (binBoundsW S B).getD [] = binBounds S B := by rw [hsome]; rfl
  have hnat := binsPartitionNat S B hB
  refine ⟨by rw [hsome]; rfl, ?_, ?_, ?_, ?_, ?_, ?_⟩
  · intro fuel hf
    rw [binBoundsLoopW_bridge S B hB hw fuel 0 (by omega), hsome]
    exact congrArg some (hnat.2.2.2.2.1 fuel hf)
  · rw [hgd]; exact hnat.1
  · rw [hgd]; exact hnat.2.1
  · rw [hgd]; exact hnat.2.2.1
  · rw [hgd]; exact hnat.2.2.2.1
  · intro sizes hs
    have htrav : optTraverse (fun s => binBoundsW s B) sizes =
        some (sizes.map (fun s => binBounds s B)) := by
      apply optTraverse_eq_some
      intro t ht
      exact binBoundsLoopW_bridge t B hB (hs t ht) t 0 (by omega)
    constructor
    · unfold binBoundsAllW
      rw [htrav]
      rfl
    · unfold binBoundsAllW
      rw [htrav]
      show ((sizes.map (fun s => binBounds s B)).flatten).length = _
      rw [List.length_flatten, List.map_map]
      apply congrArg
      apply List.map_congr_left
      intro t ht
      simp only [Function.comp_apply]
      exact (binsPartitionNat t B hB).1

/-- C3 amended witness: bin size 4 over a chromosome of size 10. -/
theorem bins_partition_w_witness :
    ((binBoundsW 10 4).getD []).length = (10 + 4 - 1) / 4 ∧
    binBoundsW 10 4 = some [(0, 4), (4, 8), (8, 10)] :=
  ⟨(bins_partition_w 10 4 (by decide) (by decide)).2.2.1, by decide⟩

theorem takeWhile_filter_of_sorted (e : Nat) :
    ∀ l : List cpgSite, List.Pairwise (fun a b : cpgSite => a.1 < b.1) l →
      l.takeWhile (fun x => decide (x.1 < e)) = l.filter (fun x => decide (x.1 < e)) := by
  intro l hl
  induction l with
  | nil => simp
  | cons a t ih =>
    obtain ⟨hhead, htail⟩ := List.pairwise_cons.mp hl
    by_cases h : a.1 < e
    · simp [List.takeWhile_cons, List.filter_cons, h, ih htail]
    · have hd : (decide (a.1 < e)) = false := by simp [h]
      simp only [List.takeWhile_cons, List.filter_cons, hd, Bool.false_eq_true, if_false]
      symm
      apply List.filter_eq_nil_iff.mpr
      intro x hx
      have := hhead x hx
      simp only [decide_eq_true_eq]
      omega

theorem dropWhile_lower (e : Nat) :
    ∀ l : List cpgSite, List.Pairwise (fun a b : cpgSite => a.1 < b.1) l →
      ∀ x ∈ l.dropWhile (fun x => decide (x.1 < e)), e ≤ x.1 := by
  intro l hl
  induction l with
  | nil => simp
  | cons a t ih =>
    obtain ⟨hhead, htail⟩ := List.pairwise_cons.mp hl
    by_cases h : a.1 < e
    · have hd : (decide (a.1 < e)) = true := by simp [h]
      simp only [List.dropWhile_cons, hd, if_true]
      exact ih htail
    · have hd : (decide (a.1 < e)) = false := by simp [h]
      simp only [List.dropWhile_cons, hd, Bool.false_eq_true, if_false]
      intro x hx
      rcases List.mem_cons.mp hx with hx | hx
      · subst hx; omega
      · have := hhead x hx; omega

theorem filter_conj_of_lower (i e : Nat) (l : List cpgSite) (h : ∀ x ∈ l, i ≤ x.1) :
    l.filter (fun x => decide (i ≤ x.1 ∧ x.1 < e)) = l.filter (fun x => decide (x.1 < e)) :=
  List.filter_congr (fun x hx => by simp [h x hx])

theorem filter_window (e lo hi : Nat) (he : e ≤ lo) (l : List cpgSite) :
    l.filter (fun x => decide (lo ≤ x.1 ∧ x.1 < hi)) =
      (l.dropWhile (fun x => decide (x.1 < e))).filter
        (fun x => decide (lo ≤ x.1 ∧ x.1 < hi)) := by
  conv_lhs => rw [← List.takeWhile_append_dropWhile (p := fun x : cpgSite => decide (x.1 < e))
    (l := l)]
  rw [List.filter_append]
  have hnil : (l.takeWhile (fun x => decide (x.1 < e))).filter
      (fun x => decide (lo ≤ x.1 ∧ x.1 < hi)) = [] := by
    apply List.filter_eq_nil_iff.mpr
    intro x hx
    have := List.mem_takeWhile_imp hx
    simp only [decide_eq_true_eq] at this ⊢
    omega
  rw [hnil, List.nil_append]

theorem chromBinsLoop_stop (S B i : Nat) (h : ¬ i < S) :
    ∀ fuel pairs, chromBinsLoop S B fuel i pairs = [] := by
  intro fuel pairs
  cases fuel with
  | zero => rfl
  | succ f => simp [chromBinsLoop, h]

theorem chromBinsLoop_closed (S B : Nat) (hB : 0 < B) :
    ∀ fuel i pairs, S - i ≤ fuel →
      List.Pairwise (fun a b : cpgSite => a.1 < b.1) pairs →
      (∀ x ∈ pairs, i ≤ x.1) →
      chromBinsLoop S B fuel i pairs =
        (List.range (nBins (S - i) B)).map (fun k =>
          ((i + k * B, min (i + k * B + B) S),
            siteAgg (pairs.filter (fun x =>
              decide (i + k * B ≤ x.1 ∧ x.1 < min (i + k * B + B) S))))) := by
  intro fuel
  induction fuel with
  | zero =>
    intro i pairs hi hsort hlo
    have h0 : S - i = 0 := by omega
    rw [h0, nBins_zero B hB]
    simp [chromBinsLoop]
  | succ fuel ih =>
    intro i pairs hi hsort hlo
    by_cases h : i < S
    · have hone : chromBinsLoop S B (fuel + 1) i pairs =
          ((i, min (i + B) S), (binCounts pairs (min (i + B) S)).1) ::
            chromBinsLoop S B fuel (i + B) (binCounts pairs (min (i + B) S)).2 := by
        simp [chromBinsLoop, h]
      rw [hone, binCounts_eq]
      rw [nBins_step (S - i) B hB (by omega), List.range_succ_eq_map]
      simp only [List.map_cons, List.map_map]
      congr 1
      · have htw : pairs.takeWhile (fun x => decide (x.1 < min (i + B) S)) =
            pairs.filter (fun x => decide (i ≤ x.1 ∧ x.1 < min (i + B) S)) := by
          rw [takeWhile_filter_of_sorted _ _ hsort, filter_conj_of_lower i _ _ hlo]
        simp only [Nat.zero_mul, Nat.add_zero, htw]
      · by_cases hend : i + B < S
        · have hrest_sort : List.Pairwise (fun a b : cpgSite => a.1 < b.1)
              (pairs.dropWhile (fun x => decide (x.1 < min (i + B) S))) :=
            List.Pairwise.sublist (List.dropWhile_sublist _) hsort
          have hmin : min (i + B) S = i + B := by omega
          have hrest_lo : ∀ x ∈ pairs.dropWhile (fun x => decide (x.1 < min (i + B) S)),
              i + B ≤ x.1 := by
            intro x hx
            have := dropWhile_lower (min (i + B) S) pairs hsort x hx
            omega
          rw [ih (i + B) _ (by omega) hrest_sort hrest_lo,
            show S - (i + B) = S - i - B from by omega]
          apply List.map_congr_left
          intro k hk
          simp only [Function.comp_apply]
          have e1 : i + B + k * B = i + (k + 1) * B := by ring
          rw [e1]
          have he : min (i + B) S ≤ i + (k + 1) * B := by
            have h2 : B ≤ (k + 1) * B := Nat.le_mul_of_pos_left B (by omega)
            exact le_trans (min_le_left _ _) (Nat.add_le_add_left h2 i)
          rw [← filter_window (min (i + B) S) _ _ he pairs]
        · rw [chromBinsLoop_stop S B (i + B) (by omega),
            show S - i - B = 0 from by omega, nBins_zero B hB]
          simp
    · have h0 : S - i = 0 := by omega
      rw [h0, nBins_zero B hB]
      simp [chromBinsLoop, h]

/-- The specified per-bin aggregation: for each bin `[kB, min((k+1)B, S))`
the sums and coverage over exactly the records whose position lies in the
bin. -/
def specBins (S B : Nat) (pairs : List cpgSite) : List ((Nat × Nat) × (Nat × Nat × Nat)) :=
  (List.range ((S + B - 1) / B)).map (fun k =>
    ((k * B, min ((k + 1) * B) S),
      siteAgg (pairs.filter (fun x => decide (k * B ≤ x.1 ∧ x.1 < min ((k + 1) * B) S)))))

theorem pairwise_zip_fst :
    ∀ (pos : List Nat) (l : List (Nat × Nat)), List.Pairwise (· < ·) pos →
      List.Pairwise (fun a b : cpgSite => a.1 < b.1) (pos.zip l) := by
  intro pos
  induction pos with
  | nil => intro l _; simp
  | cons a t ih =>
    intro l hp
    obtain ⟨hhead, htail⟩ := List.pairwise_cons.mp hp
    cases l with
    | nil => simp
    | cons b u =>
      simp only [List.zip_cons_cons]
      refine List.pairwise_cons.mpr ⟨?_, ih u htail⟩
      intro y hy
      obtain ⟨y1, y2⟩ := y
      exact hhead y1 (List.of_mem_zip hy).1

/-- The idealized Nat walk equals the specified per-bin sums; the claim
theorem reaches this through the uint32 bridge below. -/
theorem chromBins_specBins (B : Nat) (hB : 0 < B) :
    ∀ s p, List.Pairwise (fun a b : cpgSite => a.1 < b.1) p →
      chromBins s B p = specBins s B p := by
  intro s p hp
  have h := chromBinsLoop_closed s B hB s 0 p (by omega) hp (fun x _ => Nat.zero_le _)
  rw [chromBins, h, Nat.sub_zero]
  apply List.map_congr_left
  intro k hk
  have e2 : k * B + B = (k + 1) * B := by ring
  simp only [Nat.zero_add, e2]

/-- In the no-overflow regime the uint32 walk computes the Nat walk with
each accumulator triple reduced modulo 2^32. -/
theorem chromBinsLoopW_bridge (S B : Nat) (hB : 0 < B) (hw : S + B ≤ 4294967296) :
    ∀ fuel i pairs, S - i ≤ fuel →
      chromBinsLoopW S B fuel i pairs =
        some ((chromBinsLoop S B fuel i pairs).map
          (fun r => (r.1, (u32 r.2.1, u32 r.2.2.1, u32 r.2.2.2)))) := by
  intro fuel
  induction fuel with
  | zero =>
    intro i pairs hi
    have h : ¬ i < S := by omega
    simp [chromBinsLoopW, chromBinsLoop, h]
  | succ fuel ih =>
    intro i pairs hi
    by_cases h : i < S
    · have hu : u32 (i + B) = i + B := u32_eq_of_lt (by omega)
      simp only [chromBinsLoopW, chromBinsLoop, h, if_true, hu, binCountsW_eq]
      rw [ih (i + B) _ (by omega)]
      rfl
    · simp [chromBinsLoopW, chromBinsLoop, h]

/-- The specified per-bin sums reduced to uint32 range: what the
source's 32-bit accumulators hold. -/
def siteAggW (l : List cpgSite) : Nat × Nat × Nat :=
  (u32 (siteAgg l).1, u32 (siteAgg l).2.1, u32 (siteAgg l).2.2)

/-- The specified bins with uint32-reduced sums. -/
def specBinsW (S B : Nat) (pairs : List cpgSite) : List ((Nat × Nat) × (Nat × Nat × Nat)) :=
  (List.range ((S + B - 1) / B)).map (fun k =>
    ((k * B, min ((k + 1) * B) S),
      siteAggW (pairs.filter (fun x => decide (k * B ≤ x.1 ∧ x.1 < min ((k + 1) * B) S)))))

/-- The whole of `bins_main` (src/src/bins.cpp lines 143-157): for each
chromosome, in index order, pair its positions with the methylome records
starting at the chromosome's offset and walk the bins; `none` when some
chromosome's walk does not terminate (the program then never finishes). -/
def binsMainW (positions : List (List Nat)) (chromSize chromOffset : List Nat)
    (meth : List (Nat × Nat)) (B : Nat) : Option (List ((Nat × Nat) × (Nat × Nat × Nat))) :=
  (optTraverse (fun z => chromBinsW z.2.1 B (z.1.zip (meth.drop z.2.2)))
    (positions.zip (chromSize.zip chromOffset))).map List.flatten

theorem takeWhile_all_of_true {γ : Type} (p : γ → Bool) :
    ∀ l : List γ, (∀ x ∈ l, p x = true) → l.takeWhile p = l := by
  intro l
  induction l with
  | nil => intro _; rfl
  | cons x xs ih =>
    intro h
    have hx : p x = true := h x (by simp)
    simp only [List.takeWhile_cons, hx, if_true]
    rw [ih (fun y hy => h y (by simp [hy]))]

theorem sum_map_filter_le (p : cpgSite → Bool) (f : cpgSite → Nat) :
    ∀ l : List cpgSite, (((l.filter p).map f)).sum ≤ (l.map f).sum := by
  intro l
  induction l with
  | nil => simp
  | cons x rest ih =>
    cases hx : p x with
    | true =>
      simp only [List.filter_cons, hx, if_true, List.map_cons, List.sum_cons]
      omega
    | false =>
      simp only [List.filter_cons, hx, Bool.false_eq_true, if_false, List.map_cons,
        List.sum_cons]
      omega

/-- C2 amended: for every bin size B > 0 with S + B ≤ 2^32 and every
chromosome whose CpG positions are strictly ascending, the bins walk of
`bins_main` built on `bin_counts` terminates and returns, for each bin,
the sum of the m-counts, the sum of the u-counts and the number of
covered records over exactly the records whose position lies in
[bin_start, bin_end), each reduced modulo 2^32 (the uint32
accumulators); the sums are exact whenever the chromosome's total counts
and record count fit in uint32; and the whole `bins_main` run is the
concatenation of these per-chromosome results in index order. -/
theorem bins_aggregation_w (S B : Nat) (pairs : List cpgSite) (hB : 0 < B)
    (hw : S + B ≤ 4294967296)
    (hsort : List.Pairwise (fun a b : cpgSite => a.1 < b.1) pairs) :
    chromBinsW S B pairs = some (specBinsW S B pairs) ∧
    ((pairs.map (fun x => x.2.1)).sum < 4294967296 →
      (pairs.map (fun x => x.2.2)).sum < 4294967296 → pairs.length < 4294967296 →
      chromBinsW S B pairs = some (specBins S B pairs)) ∧
    (∀ positions chromSizes chromOffsets meth,
      (∀ pos ∈ positions, List.Pairwise (· < ·) pos) →
      (∀ s ∈ chromSizes, s + B ≤ 4294967296) →
      binsMainW positions chromSizes chromOffsets meth B =
        some (((positions.zip (chromSizes.zip chromOffsets)).map
          (fun z => specBinsW z.2.1 B (z.1.zip (meth.drop z.2.2)))).flatten)) := by
  have hmapw : ∀ s p, (specBins s B p).map
      (fun r => (r.1, (u32 r.2.1, u32 r.2.2.1, u32 r.2.2.2))) = specBinsW s B p := by
    intro s p
    unfold specBins specBinsW
    rw [List.map_map]
    apply List.map_congr_left
    intro k _
    rfl
  have main1 : ∀ s p, s + B ≤ 4294967296 →
      List.Pairwise (fun a b : cpgSite => a.1 < b.1) p →
      chromBinsW s B p = some (specBinsW s B p) := by
    intro s p hws hp
    have hb : chromBinsW s B p =
        some ((chromBins s B p).map
          (fun r => (r.1, (u32 r.2.1, u32 r.2.2.1, u32 r.2.2.2)))) :=
      chromBinsLoopW_bridge s B hB hws s 0 p (by omega)
    rw [hb, chromBins_specBins B hB s p hp, hmapw]
  refine ⟨main1 S pairs hw hsort, ?_, ?_⟩
  · intro hm hu hl
    rw [main1 S pairs hw hsort]
    apply congrArg some
    unfold specBinsW specBins
    apply List.map_congr_left
    intro k _
    refine Prod.ext rfl ?_
    unfold siteAggW
    have h1 : (siteAgg (pairs.filter (fun x =>
        decide (k * B ≤ x.1 ∧ x.1 < min ((k + 1) * B) S)))).1 < 4294967296 :=
      lt_of_le_of_lt (sum_map_filter_le _ _ pairs) hm
    have h2 : (siteAgg (pairs.filter (fun x =>
        decide (k * B ≤ x.1 ∧ x.1 < min ((k + 1) * B) S)))).2.1 < 4294967296 :=
      lt_of_le_of_lt (sum_map_filter_le _ _ pairs) hu
    have h3 : (siteAgg (pairs.filter (fun x =>
        decide (k * B ≤ x.1 ∧ x.1 < min ((k + 1) * B) S)))).2.2 < 4294967296 := by
      refine lt_of_le_of_lt (le_trans (List.countP_le_length _)
        (le_trans (List.length_filter_le _ _) (le_refl _))) hl
    exact Prod.ext (u32_eq_of_lt h1) (Prod.ext (u32_eq_of_lt h2) (u32_eq_of_lt h3))
  · intro positions chromSizes chromOffsets meth hpos hsz
    unfold binsMainW
    rw [optTraverse_eq_some _
      (fun z => specBinsW z.2.1 B (z.1.zip (meth.drop z.2.2))) _ ?_]
    · rfl
    · intro z hz
      have hz1 : z.1 ∈ positions := (List.of_mem_zip hz).1
      have hz2 : z.2.1 ∈ chromSizes := (List.of_mem_zip (List.of_mem_zip hz).2).1
      exact main1 z.2.1 _ (hsz _ hz2) (pairwise_zip_fst z.1 _ (hpos z.1 hz1))

/-- A bin of 65538 CpG sites at strictly ascending positions, each with
the maximal uint16 methylated count 65535: a valid methylome slice whose
m-sum 65538 · 65535 = 4295032830 exceeds 2^32 − 1. -/
def wrapPairs : List cpgSite := (List.range 65538).map (fun k => (k, 65535, 0))

/-- C2 counterexample: on that bin the kernel's uint32 m-accumulator
wraps: `bin_counts` returns 65534 where the sum of the m-counts over the
bin's records is 4295032830, so the original exact-sum claim is false of
the program. -/
theorem sum_map_range_const (m : Nat) :
    ∀ n : Nat, ((List.range n).map (fun _ => m)).sum = n * m := by
  intro n
  induction n with
  | zero => simp
  | succ n ih =>
    rw [List.range_succ, List.map_append, List.sum_append]
    simp [ih, Nat.succ_mul]

theorem bin_counts_sum_wraps :
    (binCountsW wrapPairs 65538).1.1 = 65534 ∧
    (wrapPairs.map (fun x => x.2.1)).sum = 4295032830 ∧
    (binCountsW wrapPairs 65538).1.1 ≠ (wrapPairs.map (fun x => x.2.1)).sum := by
  have hsum : (wrapPairs.map (fun x => x.2.1)).sum = 4295032830 := by
    unfold wrapPairs
    rw [List.map_map]
    have hconst : ((fun (x : cpgSite) => x.2.1) ∘
        (fun k => ((k : Nat), (65535 : Nat), (0 : Nat)))) = fun _ => (65535 : Nat) := rfl
    rw [hconst, sum_map_range_const]
  have htw : wrapPairs.takeWhile (fun x => decide (x.1 < 65538)) = wrapPairs := by
    apply takeWhile_all_of_true
    intro x hx
    obtain ⟨k, hk, rfl⟩ := List.mem_map.mp hx
    simp only [decide_eq_true_eq]
    exact List.mem_range.mp hk
  have h1 : (binCountsW wrapPairs 65538).1.1 =
      u32 ((wrapPairs.map (fun x => x.2.1)).sum) := by
    rw [binCountsW_eq, binCounts_eq]
    simp [siteAgg, htw]
  refine ⟨?_, hsum, ?_⟩
  · rw [h1, hsum]
    rfl
  · rw [h1, hsum]
    decide

/-- The S1 scenario, chromosome chr1: positions [2,4,6] paired with the
methylome records (10,0), (5,5), (0,20). -/
def s4PairsChr1 : List cpgSite := [(2, 10, 0), (4, 5, 5), (6, 0, 20)]

/-- The S1 scenario, chromosome chr2: position [0] paired with record (7,3). -/
def s4PairsChr2 : List cpgSite := [(0, 7, 3)]

/-- C2 amended witness: the S4 scenario.  On the S1 index with methylome
cpgs = [(10,0),(5,5),(0,20),(7,3)] and bin size 4, the emitted bins are
(chr1,0,4):(10,0,1), (chr1,4,8):(5,25,2), (chr2,0,2):(7,3,1). -/
theorem bins_aggregation_w_witness :
    chromBinsW 8 4 s4PairsChr1 = some [((0, 4), (10, 0, 1)), ((4, 8), (5, 25, 2))] ∧
    chromBinsW 2 4 s4PairsChr2 = some [((0, 2), (7, 3, 1))] ∧
    binsMainW [[2, 4, 6], [0]] [8, 2] [0, 3] [(10, 0), (5, 5), (0, 20), (7, 3)] 4 =
      some [((0, 4), (10, 0, 1)), ((4, 8), (5, 25, 2)), ((0, 2), (7, 3, 1))] :=
  ⟨((bins_aggregation_w 8 4 s4PairsChr1 (by decide) (by decide) (by decide)).2.1
      (by decide) (by decide) (by decide)).trans (by decide),
   ((bins_aggregation_w 2 4 s4PairsChr2 (by decide) (by decide) (by decide)).2.1
      (by decide) (by decide) (by decide)).trans (by decide),
   by
    rw [(bins_aggregation_w 8 4 s4PairsChr1 (by decide) (by decide) (by decide)).2.2
      [[2, 4, 6], [0]] [8, 2] [0, 3] [(10, 0), (5, 5), (0, 20), (7, 3)]
      (by decide) (by decide)]
    decide⟩

/-! ### CpG index offset query (claim C1)

The `cpg_index` struct is declared in the cpg_index header (carried
inside src/src/config_file_utils.hpp); the translation unit defining
`get_offset_within_chrom` / `get_offsets` is not under src/, so the query
is modelled from the spec. -/

/-- The `cpg_index` struct fields the offset query uses (cpg_index header). -/
structure cpg_index where
  chrom_size : List Nat
  positions : List (List Nat)
  chrom_offset : List Nat
  n_cpgs_total : Nat
deriving DecidableEq, Repr

/-- Index returned by `std::lower_bound` over a sorted ascending range:
the length of the maximal prefix of elements below the query position. -/
def lowerBoundIdx (l : List Nat) (pos : Nat) : Nat :=
  (l.takeWhile (fun p => decide (p < pos))).length

/-- Modelled from the spec: `cpg_index::get_offset_within_chrom`
(cpg_index.cpp, absent from src/).  The header documents it as the offset
of the CpG site from `std::lower_bound` over `positions[ch_id]`, and the
spec requires the count of CpGs on the chromosome strictly below the
position. -/
def get_offset_within_chrom (idx : cpg_index) (ch pos : Nat) : Nat :=
  lowerBoundIdx (idx.positions.getD ch []) pos

/-- Modelled from the spec: `cpg_index::get_offsets` (cpg_index.cpp,
absent from src/).  Per interval, the within-chromosome lower bounds of
start and stop, made global by adding `chrom_offset[ch_id]` to both. -/
def get_offsets (idx : cpg_index) (ch : Nat) (queries : List (Nat × Nat)) : List (Nat × Nat) :=
  queries.map (fun q =>
    (idx.chrom_offset.getD ch 0 + get_offset_within_chrom idx ch q.1,
     idx.chrom_offset.getD ch 0 + get_offset_within_chrom idx ch q.2))

theorem takeWhile_length_mono {p q : Nat → Bool} (hpq : ∀ a, p a = true → q a = true) :
    ∀ l : List Nat, (l.takeWhile p).length ≤ (l.takeWhile q).length := by
  intro l
  induction l with
  | nil => simp
  | cons a t ih =>
    cases hp : p a with
    | true =>
      simp only [List.takeWhile_cons, hp, hpq a hp, if_true, List.length_cons]
      omega
    | false =>
      simp [List.takeWhile_cons, hp]

theorem takeWhile_lt_filter_sorted (x : Nat) :
    ∀ l : List Nat, List.Pairwise (· < ·) l →
      l.takeWhile (fun p => decide (p < x)) = l.filter (fun p => decide (p < x)) := by
  intro l hl
  induction l with
  | nil => simp
  | cons a t ih =>
    obtain ⟨hhead, htail⟩ := List.pairwise_cons.mp hl
    by_cases h : a < x
    · simp [List.takeWhile_cons, List.filter_cons, h, ih htail]
    · have hd : (decide (a < x)) = false := by simp [h]
      simp only [List.takeWhile_cons, List.filter_cons, hd, Bool.false_eq_true, if_false]
      symm
      apply List.filter_eq_nil_iff.mpr
      intro b hb
      have := hhead b hb
      simp only [decide_eq_true_eq]
      omega

theorem countP_window (start stop : Nat) (hss : start ≤ stop) :
    ∀ l : List Nat,
      l.countP (fun p => decide (p < stop)) =
        l.countP (fun p => decide (p < start)) +
          l.countP (fun p => decide (start ≤ p ∧ p < stop)) := by
  intro l
  induction l with
  | nil => simp
  | cons a t ih =>
    simp only [List.countP_cons, ih]
    by_cases h1 : a < start
    · have h2 : a < stop := by omega
      have h3 : ¬ start ≤ a := by omega
      simp [h1, h2, h3]
      omega
    · have h3 : start ≤ a := by omega
      by_cases h2 : a < stop
      · simp [h1, h2, h3]
        omega
      · simp [h1, h2, h3]

/-- C1: for every CpG index, chromosome id resolving in the index with
strictly ascending positions, and interval with stop ≥ start, the offset
query returns lo ≤ hi with hi − lo the number of CpG positions p on the
chromosome with start ≤ p < stop, and `get_offsets` returns these
per-chromosome offsets shifted by `chrom_offset[ch_id]`. -/
theorem offset_query_correct (idx : cpg_index) (ch start stop : Nat)
    (hch : ch < idx.positions.length)
    (hsort : List.Pairwise (· < ·) (idx.positions.getD ch []))
    (hss : start ≤ stop) :
    get_offset_within_chrom idx ch start ≤ get_offset_within_chrom idx ch stop ∧
    get_offset_within_chrom idx ch stop - get_offset_within_chrom idx ch start =
      (idx.positions.getD ch []).countP (fun p => decide (start ≤ p ∧ p < stop)) ∧
    get_offsets idx ch [(start, stop)] =
      [(idx.chrom_offset.getD ch 0 + get_offset_within_chrom idx ch start,
        idx.chrom_offset.getD ch 0 + get_offset_within_chrom idx ch stop)] := by
  have hcount : ∀ y, get_offset_within_chrom idx ch y =
      (idx.positions.getD ch []).countP (fun p => decide (p < y)) := by
    intro y
    unfold get_offset_within_chrom lowerBoundIdx
    rw [takeWhile_lt_filter_sorted y _ hsort, List.countP_eq_length_filter]
  refine ⟨?_, ?_, by simp [get_offsets]⟩
  · unfold get_offset_within_chrom lowerBoundIdx
    exact takeWhile_length_mono (fun a ha => by
      simp only [decide_eq_true_eq] at ha ⊢
      omega) _
  · rw [hcount, hcount, countP_window start stop hss]
    omega

/-- The S1 tiny index: chrom sizes [8,2], positions [[2,4,6],[0]],
offsets [0,3], four CpGs in total. -/
def s1index : cpg_index :=
  { chrom_size := [8, 2], positions := [[2, 4, 6], [0]], chrom_offset := [0, 3],
    n_cpgs_total := 4 }

/-- C1 witness: the S2 scenario on the S1 index, offset(chr1,3,7) = (1,3)
and offset(chr2,0,2) = (3,4). -/
theorem offset_query_correct_witness :
    (get_offset_within_chrom s1index 0 7 - get_offset_within_chrom s1index 0 3 =
      (s1index.positions.getD 0 []).countP (fun p => decide (3 ≤ p ∧ p < 7))) ∧
    get_offsets s1index 0 [(3, 7)] = [(1, 3)] ∧
    get_offsets s1index 1 [(0, 2)] = [(3, 4)] :=
  ⟨(offset_query_correct s1index 0 3 7 (by decide) (by decide) (by decide)).2.1,
   by decide, by decide⟩

/-! ### Connection error paths, from src/src/connection.cpp

The response header type and its codec live in response.hpp, which is not
under src/; they are modelled from the spec (status u16, flags u16,
n_counts u32, payload_bytes u32, network byte order, padded to a fixed
size; status code 0 is OK, 1 is BAD_REQUEST).  The control flow of the
connection handlers is translated from src/src/connection.cpp. -/

/-- Modelled from the spec: the response header record (response.hpp is
absent from src/). -/
structure response_header where
  status : Nat
  flags : Nat
  n_counts : Nat
  payload_bytes : Nat
deriving DecidableEq, Repr

/-- The fixed response-header buffer size. -/
def response_buf_size : Nat := 32

/-- Modelled from the spec: serialization of a response header in network
byte order, zero-padded to the fixed size. -/
def composeResponseHeader (h : response_header) : List Nat :=
  let body := u16be h.status ++ u16be h.flags ++ u32be h.n_counts ++ u32be h.payload_bytes
  body ++ List.replicate (response_buf_size - body.length) 0

/-- Modelled from the spec: parse of a response header from a buffer of
the fixed size; fixed-width fields always parse once the size matches. -/
def parseResponseHeader (buf : List Nat) : Option response_header :=
  if buf.length = response_buf_size then
    some { status := buf.getD 0 0 * 256 + buf.getD 1 0,
           flags := buf.getD 2 0 * 256 + buf.getD 3 0,
           n_counts := ((buf.getD 4 0 * 256 + buf.getD 5 0) * 256 + buf.getD 6 0) * 256 +
             buf.getD 7 0,
           payload_bytes := ((buf.getD 8 0 * 256 + buf.getD 9 0) * 256 + buf.getD 10 0) * 256 +
             buf.getD 11 0 }
  else none

/-- Modelled from the spec: `response_header::bad_request()`; OK is status
0, BAD_REQUEST the next status value. -/
def bad_request_hdr : response_header :=
  { status := 1, flags := 0, n_counts := 0, payload_bytes := 0 }

/-- The response buffer of a fresh connection: zero bytes. -/
def freshRespBuf : List Nat := List.replicate response_buf_size 0

/-- `connection::respond_with_error` (src/src/connection.cpp lines
185-214), translated from the source: it calls `from_chars` — a parse of
resp_buf into resp_hdr — where `respond_with_header` calls `to_chars` (a
serialize of resp_hdr into resp_buf).  When that parse succeeds the
unmodified resp_buf is written to the socket; when it fails the socket is
shut down with nothing written.  Returns the bytes written, if any, and
the final resp_hdr value. -/
def respondWithError (respHdr : response_header) (respBuf : List Nat) :
    Option (List Nat) × response_header :=
  match parseResponseHeader respBuf with
  | none => (none, respHdr)
  | some h => (some respBuf, h)

/-- C6 (code bug evidence): after a validation failure sets resp_hdr to
BAD_REQUEST, `respond_with_error` on a fresh connection writes the zeroed
buffer — not the serialization of the BAD_REQUEST header — and the parse
clobbers resp_hdr back to status 0 (OK); so the specific error status
never reaches the client. -/
theorem respond_with_error_drops_status :
    (respondWithError bad_request_hdr freshRespBuf).1 = some freshRespBuf ∧
    freshRespBuf ≠ composeResponseHeader bad_request_hdr ∧
    (respondWithError bad_request_hdr freshRespBuf).2.status = 0 ∧
    bad_request_hdr.status ≠ 0 := by decide

/-- The externally visible action a connection handler takes next. -/
inductive conn_action
  | readOffsets
  | computeAndRespond
  | respondError
  | shutdownBoth
  | destroyNoWrite
deriving DecidableEq, Repr

/-- The completion handler of `connection::read_request`
(src/src/connection.cpp lines 52-101): with no I/O error it parses the
header, dispatches validation, and either starts reading offsets or
responds with an error; on an I/O error it starts no further operation
and the connection is destroyed (no response is attempted). -/
def readRequestHandler (ec hdrParseOk hdrValidationError bodyParseOk : Bool) : conn_action :=
  if ec = false then
    if hdrParseOk then
      if hdrValidationError then conn_action.respondError
      else if bodyParseOk then conn_action.readOffsets
      else conn_action.respondError
    else conn_action.respondError
  else conn_action.destroyNoWrite

/-- The completion handler of `connection::read_offsets`
(src/src/connection.cpp lines 103-131): with no I/O error it keeps
reading until the offsets are complete and then computes and responds;
on an I/O error it calls `respond_with_error`. -/
def readOffsetsHandler (ec : Bool) (offsetRemaining bytesTransferred : Nat) : conn_action :=
  if ec = false then
    if offsetRemaining - bytesTransferred = 0 then conn_action.computeAndRespond
    else conn_action.readOffsets
  else conn_action.respondError

/-- The error branch of `connection::respond_with_header`: shut the
socket down in both directions. -/
def respondWithHeaderOnError : conn_action := conn_action.shutdownBoth

/-- The error branch of `connection::respond_with_counts`: no operation;
the connection is destroyed. -/
def respondWithCountsOnError : conn_action := conn_action.destroyNoWrite

/-- C7 counterexample: an I/O error while reading offsets does not abort
the connection without a response — the handler calls
`respond_with_error`, attempting to write a response header. -/
theorem read_offsets_error_not_aborted :
    readOffsetsHandler true 100 0 = conn_action.respondError ∧
    conn_action.respondError ≠ conn_action.destroyNoWrite ∧
    conn_action.respondError ≠ conn_action.shutdownBoth := by decide

/-- C7 amended: on an I/O error while reading the request header the
connection starts no further operation and is destroyed with no response
attempted; on an I/O error while reading offsets the connection instead
invokes `respond_with_error`, attempting an error response; write errors
shut the socket down (header) or destroy the connection (counts); and in
no error case does the connection retry the failed operation. -/
theorem connection_io_error_actions :
    (∀ hp hv bp, readRequestHandler true hp hv bp = conn_action.destroyNoWrite) ∧
    (∀ rem tr : Nat, readOffsetsHandler true rem tr = conn_action.respondError) ∧
    respondWithHeaderOnError = conn_action.shutdownBoth ∧
    respondWithCountsOnError = conn_action.destroyNoWrite ∧
    (∀ hp hv bp, readRequestHandler true hp hv bp ≠ conn_action.readOffsets) ∧
    (∀ rem tr : Nat, readOffsetsHandler true rem tr ≠ conn_action.readOffsets) := by
  refine ⟨fun hp hv bp => rfl, fun rem tr => rfl, rfl, rfl,
    fun hp hv bp => by simp [readRequestHandler],
    fun rem tr => by simp [readOffsetsHandler]⟩

/-! ### Methylome-set cache single-flight (claim C8)

methylome_set.cpp is not under src/, so the protocol is modelled from the
spec: the LRU map is guarded by a single mutex, a missing accession is
inserted in LOADING state and loaded outside the mutex, other callers
wait on a condition variable and observe completion under the mutex.
Each labelled step below is one mutex-protected (or loader) action; a
trace is any interleaving of the n threads' steps. -/

/-- Program counter of one thread performing `get` on the accession. -/
inductive loadPC
  | start
  | loading
  | waiting
  | done
deriving DecidableEq, Repr

/-- The cache map entry state for the accession. -/
inductive entryState
  | absent
  | loadingE
  | loadedE
deriving DecidableEq, Repr

/-- Global state: the entry, each thread's program counter, and how many
times the loader has been invoked. -/
structure mset_state where
  entry : entryState
  pcs : List loadPC
  loadCount : Nat
deriving DecidableEq, Repr

/-- Initial state for n concurrent gets of one missing accession. -/
def msetInit (n : Nat) : mset_state :=
  { entry := entryState.absent, pcs := List.replicate n loadPC.start, loadCount := 0 }

/-- Modelled from the spec: one atomic step of the single-flight
protocol.  A starting thread that finds the entry absent inserts it in
LOADING state and invokes the loader; a starting thread that finds it
LOADING waits; a starting thread that finds it LOADED completes; the
loader marks the entry LOADED; a waiter completes only once the entry is
LOADED. -/
inductive msetStep : mset_state → mset_state → Prop
  | beginLoad (s : mset_state) (t : Nat) (ht : s.pcs[t]? = some loadPC.start)
      (he : s.entry = entryState.absent) :
      msetStep s { entry := entryState.loadingE, pcs := s.pcs.set t loadPC.loading,
                   loadCount := s.loadCount + 1 }
  | joinWait (s : mset_state) (t : Nat) (ht : s.pcs[t]? = some loadPC.start)
      (he : s.entry = entryState.loadingE) :
      msetStep s { s with pcs := s.pcs.set t loadPC.waiting }
  | hitLoaded (s : mset_state) (t : Nat) (ht : s.pcs[t]? = some loadPC.start)
      (he : s.entry = entryState.loadedE) :
      msetStep s { s with pcs := s.pcs.set t loadPC.done }
  | finishLoad (s : mset_state) (t : Nat) (ht : s.pcs[t]? = some loadPC.loading) :
      msetStep s { entry := entryState.loadedE, pcs := s.pcs.set t loadPC.done,
                   loadCount := s.loadCount }
  | wakeWaiter (s : mset_state) (t : Nat) (ht : s.pcs[t]? = some loadPC.waiting)
      (he : s.entry = entryState.loadedE) :
      msetStep s { s with pcs := s.pcs.set t loadPC.done }

theorem getElem?_mem_list {α : Type} : ∀ (l : List α) (t : Nat) (a : α), l[t]? = some a → a ∈ l := by
  intro l
  induction l with
  | nil => intro t a h; simp at h
  | cons c rest ih =>
    intro t a h
    cases t with
    | zero =>
      simp only [List.getElem?_cons_zero, Option.some.injEq] at h
      simp [h]
    | succ t =>
      simp only [List.getElem?_cons_succ] at h
      simp [ih t a h]

theorem mem_set_cases {α : Type} : ∀ (l : List α) (t : Nat) (b x : α), x ∈ l.set t b → x = b ∨ x ∈ l := by
  intro l
  induction l with
  | nil => intro t b x h; simp at h
  | cons c rest ih =>
    intro t b x h
    cases t with
    | zero =>
      simp only [List.set_cons_zero, List.mem_cons] at h
      rcases h with h | h
      · exact Or.inl h
      · exact Or.inr (List.mem_cons_of_mem _ h)
    | succ t =>
      simp only [List.set_cons_succ, List.mem_cons] at h
      rcases h with h | h
      · exact Or.inr (by simp [h])
      · rcases ih t b x h with h2 | h2
        · exact Or.inl h2
        · exact Or.inr (List.mem_cons_of_mem _ h2)

theorem countP_set_eq {α : Type} (p : α → Bool) :
    ∀ (l : List α) (t : Nat) (a b : α), l[t]? = some a →
      (l.set t b).countP p + (if p a then 1 else 0) =
        l.countP p + (if p b then 1 else 0) := by
  intro l
  induction l with
  | nil => intro t a b h; simp at h
  | cons c rest ih =>
    intro t a b h
    cases t with
    | zero =>
      simp only [List.getElem?_cons_zero, Option.some.injEq] at h
      subst h
      simp only [List.set_cons_zero, List.countP_cons]
      omega
    | succ t =>
      simp only [List.getElem?_cons_succ] at h
      simp only [List.set_cons_succ, List.countP_cons]
      have := ih t a b h
      omega

/-- Number of threads currently holding the loader role. -/
def countLoading (pcs : List loadPC) : Nat :=
  pcs.countP (fun pc => decide (pc = loadPC.loading))

/-- The inductive invariant of the single-flight protocol. -/
def msetInv (s : mset_state) : Prop :=
  (s.entry = entryState.absent → s.loadCount = 0 ∧ ∀ pc ∈ s.pcs, pc = loadPC.start) ∧
  (s.entry = entryState.loadingE → s.loadCount = 1 ∧ countLoading s.pcs = 1 ∧
    ∀ pc ∈ s.pcs, pc ≠ loadPC.done) ∧
  (s.entry = entryState.loadedE → s.loadCount = 1 ∧ ∀ pc ∈ s.pcs, pc ≠ loadPC.loading)

theorem msetInv_init (n : Nat) : msetInv (msetInit n) := by
  refine ⟨fun _ => ⟨rfl, fun pc hpc => List.eq_of_mem_replicate hpc⟩, fun h => ?_, fun h => ?_⟩
  · simp [msetInit] at h
  · simp [msetInit] at h

theorem countLoading_cons (x : loadPC) (l : List loadPC) :
    countLoading (x :: l) = (if x = loadPC.loading then 1 else 0) + countLoading l := by
  unfold countLoading
  rw [List.countP_cons]
  by_cases h : x = loadPC.loading <;> simp [h] <;> omega

theorem countLoading_set :
    ∀ (pcs : List loadPC) (t : Nat) (a b : loadPC), pcs[t]? = some a →
      countLoading (pcs.set t b) + (if a = loadPC.loading then 1 else 0) =
        countLoading pcs + (if b = loadPC.loading then 1 else 0) := by
  intro pcs
  induction pcs with
  | nil => intro t a b h; simp at h
  | cons c rest ih =>
    intro t a b h
    cases t with
    | zero =>
      have hca : c = a := by simpa using h
      subst hca
      rw [List.set_cons_zero, countLoading_cons, countLoading_cons]
      by_cases h1 : c = loadPC.loading <;> by_cases h2 : b = loadPC.loading <;>
        simp [h1, h2] <;> omega
    | succ t =>
      simp only [List.getElem?_cons_succ] at h
      rw [List.set_cons_succ, countLoading_cons, countLoading_cons]
      have := ih t a b h
      by_cases hc : c = loadPC.loading <;> simp [hc] <;> omega

theorem countLoading_zero_of_all (pcs : List loadPC) (h : ∀ pc ∈ pcs, pc ≠ loadPC.loading) :
    countLoading pcs = 0 := by
  unfold countLoading
  apply List.countP_eq_zero.mpr
  intro pc hpc
  simp [h pc hpc]

theorem countLoading_pos_of_mem (pcs : List loadPC) (h : loadPC.loading ∈ pcs) :
    0 < countLoading pcs := by
  unfold countLoading
  exact List.countP_pos_iff.mpr ⟨loadPC.loading, h, by simp⟩

theorem msetInv_step {s s2 : mset_state} (hstep : msetStep s s2) (hinv : msetInv s) :
    msetInv s2 := by
  cases hstep with
  | beginLoad t ht he =>
    obtain ⟨hc0, hall⟩ := hinv.1 he
    refine ⟨fun h => by simp at h, fun _ => ⟨?_, ?_, ?_⟩, fun h => by simp at h⟩
    · show s.loadCount + 1 = 1
      omega
    · show countLoading (s.pcs.set t loadPC.loading) = 1
      have hz : countLoading s.pcs = 0 :=
        countLoading_zero_of_all _ (fun pc hpc => by rw [hall pc hpc]; decide)
      have hcs := countLoading_set s.pcs t loadPC.start loadPC.loading ht
      rw [show (if loadPC.start = loadPC.loading then (1 : Nat) else 0) = 0 from rfl,
        show (if loadPC.loading = loadPC.loading then (1 : Nat) else 0) = 1 from rfl] at hcs
      omega
    · intro pc hpc
      rcases mem_set_cases _ _ _ _ hpc with h | h
      · subst h; decide
      · rw [hall pc h]; decide
  | joinWait t ht he =>
    obtain ⟨hc1, hcl, hnd⟩ := hinv.2.1 he
    refine ⟨fun h => ?_, fun _ => ⟨hc1, ?_, ?_⟩, fun h => ?_⟩
    · exfalso
      have h2 : s.entry = entryState.absent := h
      rw [he] at h2
      simp at h2
    · show countLoading (s.pcs.set t loadPC.waiting) = 1
      have hcs := countLoading_set s.pcs t loadPC.start loadPC.waiting ht
      rw [show (if loadPC.start = loadPC.loading then (1 : Nat) else 0) = 0 from rfl,
        show (if loadPC.waiting = loadPC.loading then (1 : Nat) else 0) = 0 from rfl] at hcs
      omega
    · intro pc hpc
      rcases mem_set_cases _ _ _ _ hpc with h | h
      · subst h; decide
      · exact hnd pc h
    · exfalso
      have h2 : s.entry = entryState.loadedE := h
      rw [he] at h2
      simp at h2
  | hitLoaded t ht he =>
    obtain ⟨hc1, hnl⟩ := hinv.2.2 he
    refine ⟨fun h => ?_, fun h => ?_, fun _ => ⟨hc1, ?_⟩⟩
    · exfalso
      have h2 : s.entry = entryState.absent := h
      rw [he] at h2
      simp at h2
    · exfalso
      have h2 : s.entry = entryState.loadingE := h
      rw [he] at h2
      simp at h2
    · intro pc hpc
      rcases mem_set_cases _ _ _ _ hpc with h | h
      · subst h; decide
      · exact hnl pc h
  | finishLoad t ht =>
    have hmem : loadPC.loading ∈ s.pcs := getElem?_mem_list _ _ _ ht
    have hentry : s.entry = entryState.loadingE := by
      cases hs : s.entry with
      | absent =>
        have := (hinv.1 hs).2 loadPC.loading hmem
        simp at this
      | loadingE => rfl
      | loadedE =>
        have := (hinv.2.2 hs).2 loadPC.loading hmem
        simp at this
    obtain ⟨hc1, hcl, hnd⟩ := hinv.2.1 hentry
    refine ⟨fun h => by simp at h, fun h => by simp at h, fun _ => ⟨hc1, ?_⟩⟩
    have hz : countLoading (s.pcs.set t loadPC.done) = 0 := by
      have hcs := countLoading_set s.pcs t loadPC.loading loadPC.done ht
      rw [show (if loadPC.loading = loadPC.loading then (1 : Nat) else 0) = 1 from rfl,
        show (if loadPC.done = loadPC.loading then (1 : Nat) else 0) = 0 from rfl] at hcs
      omega
    intro pc hpc hcontr
    subst hcontr
    have hpc2 : loadPC.loading ∈ s.pcs.set t loadPC.done := hpc
    have := countLoading_pos_of_mem _ hpc2
    omega
  | wakeWaiter t ht he =>
    obtain ⟨hc1, hnl⟩ := hinv.2.2 he
    refine ⟨fun h => ?_, fun h => ?_, fun _ => ⟨hc1, ?_⟩⟩
    · exfalso
      have h2 : s.entry = entryState.absent := h
      rw [he] at h2
      simp at h2
    · exfalso
      have h2 : s.entry = entryState.loadingE := h
      rw [he] at h2
      simp at h2
    · intro pc hpc
      rcases mem_set_cases _ _ _ _ hpc with h | h
      · subst h; decide
      · exact hnl pc h


theorem msetInv_reach {n : Nat} {s : mset_state}
    (h : Relation.ReflTransGen msetStep (msetInit n) s) : msetInv s := by
  induction h with
  | refl => exact msetInv_init n
  | tail _ hstep ih => exact msetInv_step hstep ih

theorem mset_length_reach {n : Nat} {s : mset_state}
    (h : Relation.ReflTransGen msetStep (msetInit n) s) : s.pcs.length = n := by
  induction h with
  | refl => simp [msetInit]
  | tail _ hstep ih =>
    cases hstep <;> simpa using ih

/-- C8 (spec-modelled): in every state reachable by any interleaving of n
concurrent gets of the same missing accession, the loader has been
invoked at most once; any thread that has completed observed the entry in
LOADED state, by which point the loader was invoked exactly once; and
when all n threads (n > 0) have completed, the loader was invoked exactly
once. -/
theorem cache_single_flight (n : Nat) (s : mset_state)
    (hreach : Relation.ReflTransGen msetStep (msetInit n) s) :
    s.loadCount ≤ 1 ∧
    (∀ t : Nat, s.pcs[t]? = some loadPC.done →
      s.entry = entryState.loadedE ∧ s.loadCount = 1) ∧
    ((∀ pc ∈ s.pcs, pc = loadPC.done) → 0 < n → s.loadCount = 1) := by
  have hinv := msetInv_reach hreach
  have hlen := mset_length_reach hreach
  have hdone : ∀ pc ∈ s.pcs, pc = loadPC.done →
      s.entry = entryState.loadedE ∧ s.loadCount = 1 := by
    intro pc hpc hpcd
    subst hpcd
    cases hs : s.entry with
    | absent =>
      have := (hinv.1 hs).2 loadPC.done hpc
      simp at this
    | loadingE =>
      have := (hinv.2.1 hs).2.2 loadPC.done hpc
      simp at this
    | loadedE => exact ⟨rfl, (hinv.2.2 hs).1⟩
  refine ⟨?_, ?_, ?_⟩
  · cases hs : s.entry with
    | absent => have := (hinv.1 hs).1; omega
    | loadingE => have := (hinv.2.1 hs).1; omega
    | loadedE => have := (hinv.2.2 hs).1; omega
  · intro t ht
    exact hdone loadPC.done (getElem?_mem_list _ _ _ ht) rfl
  · intro hall hn
    have hne : s.pcs ≠ [] := by
      intro hnil
      rw [hnil] at hlen
      simp at hlen
      omega
    obtain ⟨pc, hpc⟩ := List.exists_mem_of_ne_nil s.pcs hne
    exact (hdone pc hpc (hall pc hpc)).2

/-- Final state of a two-thread run: thread 0 loaded, thread 1 waited. -/
def msetFinal : mset_state :=
  { entry := entryState.loadedE, pcs := [loadPC.done, loadPC.done], loadCount := 1 }

/-- C8 witness: a concrete interleaving of two concurrent gets — thread 0
begins the load, thread 1 joins as a waiter, thread 0 finishes, thread 1
wakes — reaches the all-done state with the loader invoked exactly once. -/
theorem cache_single_flight_witness :
    msetFinal.loadCount = 1 ∧ msetFinal.entry = entryState.loadedE := by
  have h1 : msetStep (msetInit 2)
      ⟨entryState.loadingE, [loadPC.loading, loadPC.start], 1⟩ :=
    msetStep.beginLoad (msetInit 2) 0 rfl rfl
  have h2 : msetStep ⟨entryState.loadingE, [loadPC.loading, loadPC.start], 1⟩
      ⟨entryState.loadingE, [loadPC.loading, loadPC.waiting], 1⟩ :=
    msetStep.joinWait _ 1 rfl rfl
  have h3 : msetStep ⟨entryState.loadingE, [loadPC.loading, loadPC.waiting], 1⟩
      ⟨entryState.loadedE, [loadPC.done, loadPC.waiting], 1⟩ :=
    msetStep.finishLoad _ 0 rfl
  have h4 : msetStep ⟨entryState.loadedE, [loadPC.done, loadPC.waiting], 1⟩ msetFinal :=
    msetStep.wakeWaiter _ 1 rfl rfl
  have hreach : Relation.ReflTransGen msetStep (msetInit 2) msetFinal :=
    Relation.ReflTransGen.head h1 (Relation.ReflTransGen.head h2
      (Relation.ReflTransGen.head h3 (Relation.ReflTransGen.head h4
        Relation.ReflTransGen.refl)))
  exact ⟨(cache_single_flight 2 msetFinal hreach).2.2 (by decide) (by decide),
    ((cache_single_flight 2 msetFinal hreach).2.1 0 rfl).1⟩

/-! ### cpg_index_set construction, from src/unnamed/part_000 (cpg_index_set.cpp)

One directory entry is abstracted to: whether its filename matches the
index pattern (and with which assembly name), and the outcomes of the two
reads.  The index and metadata payloads are type parameters — their
contents play no role in the constructor's control flow. -/

/-- One directory entry as the constructor sees it. -/
structure dirEntry (α β : Type) where
  assembly : Option String
  indexRead : Option α
  metaRead : Option β
deriving DecidableEq, Repr

/-- `unordered_map::emplace`: insert only when the key is absent. -/
def emplaceA {γ : Type} (m : List (String × γ)) (k : String) (v : γ) : List (String × γ) :=
  if m.any (fun p => p.1 == k) then m else m ++ [(k, v)]

/-- Key membership in an association list. -/
def hasKey {γ : Type} (m : List (String × γ)) (k : String) : Bool :=
  m.any (fun p => p.1 == k)

/-- `cpg_index_set::cpg_index_set` (src/unnamed/part_000 lines 78-121),
translated from the source: iterate the directory entries in order; for a
matching filename, read the index — on failure clear both maps and
return — then read the metadata — on failure clear both maps and return —
and emplace both under the assembly name.  (The source emplaces the index
before attempting the metadata read; since a metadata failure clears both
maps, folding both emplaces after both reads succeed yields the same
result.) -/
def cpgIndexSetBuild {α β : Type} :
    List (dirEntry α β) → List (String × α) × List (String × β) →
      List (String × α) × List (String × β)
  | [], acc => acc
  | e :: rest, acc =>
    match e.assembly with
    | none => cpgIndexSetBuild rest acc
    | some asm =>
      match e.indexRead with
      | none => ([], [])
      | some idx =>
        match e.metaRead with
        | none => ([], [])
        | some mv => cpgIndexSetBuild rest (emplaceA acc.1 asm idx, emplaceA acc.2 asm mv)

/-- The constructor run from empty maps. -/
def cpgIndexSetCtor {α β : Type} (entries : List (dirEntry α β)) :
    List (String × α) × List (String × β) :=
  cpgIndexSetBuild entries ([], [])

theorem hasKey_emplaceA {γ : Type} (m : List (String × γ)) (k k2 : String) (v : γ) :
    hasKey (emplaceA m k v) k2 = (hasKey m k2 || (k == k2)) := by
  unfold emplaceA hasKey
  by_cases h : m.any (fun p => p.1 == k) = true
  · simp only [h, if_true]
    by_cases hk : k = k2
    · subst hk
      simp [h]
    · have hne : (k == k2) = false := by simp [hk]
      simp [hne]
  · have h2 : m.any (fun p => p.1 == k) = false := by
      revert h
      cases m.any (fun p => p.1 == k) <;> simp
    simp [h2, List.any_append]

theorem keysEq_build {α β : Type} :
    ∀ (entries : List (dirEntry α β)) (acc : List (String × α) × List (String × β)),
      (∀ k, hasKey acc.1 k = hasKey acc.2 k) →
      ∀ k, hasKey (cpgIndexSetBuild entries acc).1 k =
        hasKey (cpgIndexSetBuild entries acc).2 k := by
  intro entries
  induction entries with
  | nil => intro acc h k; exact h k
  | cons e rest ih =>
    intro acc h k
    cases ha : e.assembly with
    | none =>
      simp only [cpgIndexSetBuild, ha]
      exact ih acc h k
    | some asm =>
      cases hi : e.indexRead with
      | none => simp [cpgIndexSetBuild, ha, hi, hasKey]
      | some idx =>
        cases hm : e.metaRead with
        | none => simp [cpgIndexSetBuild, ha, hi, hm, hasKey]
        | some mv =>
          simp only [cpgIndexSetBuild, ha, hi, hm]
          apply ih
          intro k2
          simp only [hasKey_emplaceA, h k2]

theorem build_fail {α β : Type} :
    ∀ (entries : List (dirEntry α β)) (acc : List (String × α) × List (String × β)),
      (∃ e ∈ entries, e.assembly ≠ none ∧ (e.indexRead = none ∨ e.metaRead = none)) →
      cpgIndexSetBuild entries acc = ([], []) := by
  intro entries
  induction entries with
  | nil => intro acc h; simp at h
  | cons e rest ih =>
    intro acc h
    rcases h with ⟨e2, he2, hma, hfail⟩
    rcases List.mem_cons.mp he2 with he2 | he2
    · subst he2
      obtain ⟨asm, hasm⟩ := Option.ne_none_iff_exists.mp hma
      rcases hfail with hf | hf
      · simp [cpgIndexSetBuild, ← hasm, hf]
      · cases hi : e2.indexRead with
        | none => simp [cpgIndexSetBuild, ← hasm, hi]
        | some idx => simp [cpgIndexSetBuild, ← hasm, hi, hf]
    · cases ha : e.assembly with
      | none =>
        simp only [cpgIndexSetBuild, ha]
        exact ih acc ⟨e2, he2, hma, hfail⟩
      | some asm =>
        cases hi : e.indexRead with
        | none => simp [cpgIndexSetBuild, ha, hi]
        | some idx =>
          cases hm : e.metaRead with
          | none => simp [cpgIndexSetBuild, ha, hi, hm]
          | some mv =>
            simp only [cpgIndexSetBuild, ha, hi, hm]
            exact ih _ ⟨e2, he2, hma, hfail⟩

theorem build_persist {α β : Type} :
    ∀ (entries : List (dirEntry α β)) (acc : List (String × α) × List (String × β)) (k : String),
      (∀ e ∈ entries, e.assembly ≠ none → e.indexRead ≠ none ∧ e.metaRead ≠ none) →
      hasKey acc.1 k = true → hasKey acc.2 k = true →
      hasKey (cpgIndexSetBuild entries acc).1 k = true ∧
        hasKey (cpgIndexSetBuild entries acc).2 k = true := by
  intro entries
  induction entries with
  | nil => intro acc k _ h1 h2; exact ⟨h1, h2⟩
  | cons e rest ih =>
    intro acc k hok h1 h2
    cases ha : e.assembly with
    | none =>
      simp only [cpgIndexSetBuild, ha]
      exact ih acc k (fun x hx => hok x (List.mem_cons_of_mem _ hx)) h1 h2
    | some asm =>
      have hne : e.assembly ≠ none := by simp [ha]
      obtain ⟨hi, hm⟩ := hok e (List.mem_cons_self _ _) hne
      obtain ⟨idx, hidx⟩ := Option.ne_none_iff_exists.mp hi
      obtain ⟨mv, hmv⟩ := Option.ne_none_iff_exists.mp hm
      simp only [cpgIndexSetBuild, ha, ← hidx, ← hmv]
      apply ih _ _ (fun x hx => hok x (List.mem_cons_of_mem _ hx))
      · rw [hasKey_emplaceA, h1]
        simp
      · rw [hasKey_emplaceA, h2]
        simp

theorem build_adds {α β : Type} :
    ∀ (entries : List (dirEntry α β)) (acc : List (String × α) × List (String × β)),
      (∀ e ∈ entries, e.assembly ≠ none → e.indexRead ≠ none ∧ e.metaRead ≠ none) →
      ∀ e ∈ entries, ∀ asm, e.assembly = some asm →
        hasKey (cpgIndexSetBuild entries acc).1 asm = true ∧
          hasKey (cpgIndexSetBuild entries acc).2 asm = true := by
  intro entries
  induction entries with
  | nil => intro acc _ e he; simp at he
  | cons e0 rest ih =>
    intro acc hok e he asm hasm
    rcases List.mem_cons.mp he with he | he
    · subst he
      have hne : e.assembly ≠ none := by simp [hasm]
      obtain ⟨hi, hm⟩ := hok e (List.mem_cons_self _ _) hne
      obtain ⟨idx, hidx⟩ := Option.ne_none_iff_exists.mp hi
      obtain ⟨mv, hmv⟩ := Option.ne_none_iff_exists.mp hm
      simp only [cpgIndexSetBuild, hasm, ← hidx, ← hmv]
      apply build_persist rest _ asm (fun x hx => hok x (List.mem_cons_of_mem _ hx))
      · rw [hasKey_emplaceA]
        simp
      · rw [hasKey_emplaceA]
        simp
    · cases ha : e0.assembly with
      | none =>
        simp only [cpgIndexSetBuild, ha]
        exact ih acc (fun x hx => hok x (List.mem_cons_of_mem _ hx)) e he asm hasm
      | some asm0 =>
        have hne : e0.assembly ≠ none := by simp [ha]
        obtain ⟨hi, hm⟩ := hok e0 (List.mem_cons_self _ _) hne
        obtain ⟨idx, hidx⟩ := Option.ne_none_iff_exists.mp hi
        obtain ⟨mv, hmv⟩ := Option.ne_none_iff_exists.mp hm
        simp only [cpgIndexSetBuild, ha, ← hidx, ← hmv]
        exact ih _ (fun x hx => hok x (List.mem_cons_of_mem _ hx)) e he asm hasm

/-- C10: after `cpg_index_set` construction the two maps hold exactly the
same assemblies: every key of one is a key of the other; if reading any
matching entry's index or metadata fails, both maps are left empty; and
when no read fails, every discovered assembly is a key of both maps. -/
theorem cpg_index_set_maps_consistent {α β : Type} (entries : List (dirEntry α β)) :
    (∀ k, hasKey (cpgIndexSetCtor entries).1 k = hasKey (cpgIndexSetCtor entries).2 k) ∧
    ((∃ e ∈ entries, e.assembly ≠ none ∧ (e.indexRead = none ∨ e.metaRead = none)) →
      cpgIndexSetCtor entries = ([], [])) ∧
    ((∀ e ∈ entries, e.assembly ≠ none → e.indexRead ≠ none ∧ e.metaRead ≠ none) →
      ∀ e ∈ entries, ∀ asm, e.assembly = some asm →
        hasKey (cpgIndexSetCtor entries).1 asm = true ∧
          hasKey (cpgIndexSetCtor entries).2 asm = true) :=
  ⟨keysEq_build entries ([], []) (fun _ => rfl),
   fun h => build_fail entries ([], []) h,
   fun hok e he asm hasm => build_adds entries ([], []) hok e he asm hasm⟩

/-- C10 witness: a directory with one good hg38 entry and one
non-matching file yields both maps holding exactly hg38; a directory
whose mm10 metadata read fails yields two empty maps. -/
theorem cpg_index_set_maps_consistent_witness :
    (hasKey (cpgIndexSetCtor [⟨some "hg38", some 1, some 2⟩,
        (⟨none, none, none⟩ : dirEntry Nat Nat)]).1 "hg38" = true ∧
      hasKey (cpgIndexSetCtor [⟨some "hg38", some 1, some 2⟩,
        (⟨none, none, none⟩ : dirEntry Nat Nat)]).2 "hg38" = true) ∧
    cpgIndexSetCtor [(⟨some "mm10", some 1, none⟩ : dirEntry Nat Nat)] = ([], []) :=
  ⟨(cpg_index_set_maps_consistent _).2.2 (by decide)
      ⟨some "hg38", some 1, some 2⟩ (by simp) "hg38" rfl,
   (cpg_index_set_maps_consistent _).2.1 ⟨⟨some "mm10", some 1, none⟩, by simp, by simp, by simp⟩⟩

end Mxe
